import Mathlib

set_option maxRecDepth 8000

/-!
Verification development for `matmul_explainer.py`.

The source decomposes matrix-multiplication-like operations into nine
sign-class contributions (PP, PZ, PN, ZP, ZZ, ZN, NP, NZ, NN), filters them
for "explanatory coverage", groups them, and renders textual summaries.

Modelling conventions used throughout this file:
* Floating-point values are modelled by `ℚ`.  The numpy/TF comparison and
  arithmetic primitives used by the source are exact on the values the
  claims exercise; rounding is out of scope except where a claim is about
  formatting, where decimal rounding is modelled exactly.
* For the one claim about NaN semantics, the element domain is refined to
  `PyFloat` (a rational or NaN), with IEEE comparison semantics: every
  comparison against NaN is false.
* numpy arrays are modelled as `List`s.  Operations that the source applies
  along `axis=-1` act on each output position independently (the source
  docstring of `filter_classifications` states this explicitly), so those
  operations are modelled on the per-position list of 9 terms.
* `np.argsort` followed by `np.take_along_axis` on several parallel arrays
  applies one common permutation to all of them; it is modelled by
  `argsortBy` (returning the index permutation) and `takeAlong` (applying
  it), mirroring the source structure.
-/

/-! ### Sign classification masks (`classification_mask`, lines 836-850)

The source computes, for a tensor `x` and scalar `threshold`:
  `zero_mask = tf.logical_or(x == 0, tf.abs(x) < threshold)`
  `pos_mask  = tf.logical_and(x > 0, tf.logical_not(zero_mask))`
  `neg_mask  = tf.logical_and(x < 0, tf.logical_not(zero_mask))`
elementwise.  Modelled per element over `ℚ`. -/

def zero_mask (v t : ℚ) : Bool := decide (v = 0) || decide (|v| < t)

def pos_mask (v t : ℚ) : Bool := v > 0 && !(zero_mask v t)

def neg_mask (v t : ℚ) : Bool := v < 0 && !(zero_mask v t)

/-- Count contribution of one element: `tf.cast(mask, tf.float32)` yields
1.0 where the mask is true and 0.0 elsewhere. -/
def maskCount (m : ℚ → ℚ → Bool) (t v : ℚ) : ℚ := if m v t then 1 else 0

/-- Value contribution of one element: `tf.where(mask, x, tf.zeros_like(x))`
keeps the element where the mask is true and is 0.0 elsewhere. -/
def maskVal (m : ℚ → ℚ → Bool) (t v : ℚ) : ℚ := if m v t then v else 0

/-! ### Float domain refined with NaN

`x == 0`, `tf.abs(x) < threshold`, `x > 0`, `x < 0` are IEEE comparisons:
they are all false when `x` (or the threshold) is NaN.  `PyFloat` refines
the element domain to make that explicit; `classification_mask`'s three
masks are re-expressed over it. -/

inductive PyFloat where
  | nan : PyFloat
  | val : ℚ → PyFloat
deriving DecidableEq, Repr

/-- IEEE equality-with-zero test: false on NaN. -/
def PyFloat.eqZero : PyFloat → Bool
  | .nan => false
  | .val v => v == 0

/-- IEEE less-than: false whenever either side is NaN. -/
def PyFloat.flt : PyFloat → PyFloat → Bool
  | .nan, _ => false
  | _, .nan => false
  | .val a, .val b => a < b

/-- IEEE greater-than: false whenever either side is NaN. -/
def PyFloat.fgt : PyFloat → PyFloat → Bool
  | .nan, _ => false
  | _, .nan => false
  | .val a, .val b => b < a

/-- `tf.abs`: absolute value, NaN maps to NaN. -/
def PyFloat.fabs : PyFloat → PyFloat
  | .nan => .nan
  | .val v => .val |v|

/-- `zero_mask` over the NaN-refined domain (source line 846). -/
def zero_maskF (x t : PyFloat) : Bool := x.eqZero || (x.fabs.flt t)

/-- `pos_mask` over the NaN-refined domain (source line 847). -/
def pos_maskF (x t : PyFloat) : Bool := x.fgt (.val 0) && !(zero_maskF x t)

/-- `neg_mask` over the NaN-refined domain (source line 848). -/
def neg_maskF (x t : PyFloat) : Bool := x.flt (.val 0) && !(zero_maskF x t)

/-- Count contribution over the refined domain (`tf.cast(mask, tf.float32)`). -/
def maskCountF (m : Bool) : ℚ := if m then 1 else 0

/-- Value contribution over the refined domain
(`tf.where(mask, x, tf.zeros_like(x))`). -/
def maskValF (m : Bool) (x : PyFloat) : PyFloat := if m then x else .val 0

/-- An element is in exactly one of the three sign classes. -/
def exactlyOneClass (p z n : Bool) : Prop :=
  (p = true ∧ z = false ∧ n = false) ∨
  (p = false ∧ z = true ∧ n = false) ∨
  (p = false ∧ z = false ∧ n = true)

instance (p z n : Bool) : Decidable (exactlyOneClass p z n) := by
  unfold exactlyOneClass; infer_instance

/-! ### `_parse_thresholds_arg` (lines 1133-1158)

The Python argument can be `None`, a bare float, or a sequence of optional
floats.  The source runs `t1, t2 = thresholds` inside
`try: ... except ValueError:`; unpacking a non-iterable float raises
`TypeError`, which that handler does not catch, while a sequence of length
other than 2 raises `ValueError`, which is re-raised with the
"must have length 2" message. -/

inductive ThresholdsArg where
  | none : ThresholdsArg
  | float : ℚ → ThresholdsArg
  | seq : List (Option ℚ) → ThresholdsArg

inductive PyError where
  | typeError : PyError
  | valueError : PyError
deriving DecidableEq, Repr

/-- Model of `_parse_thresholds_arg`. -/
def parse_thresholds_arg : ThresholdsArg → Except PyError (Option ℚ × Option ℚ)
  | .none => .ok (none, none)
  | .float _ => .error .typeError
  | .seq ts =>
    match ts with
    | [t1, t2] => .ok (t1, t2)
    | _ => .error .valueError

/-! ### `matmul_classify` (lines 399-449) and `multiply_classify` (452-535)

The nine class pairs are produced in the fixed order
PP, PZ, PN, ZP, ZZ, ZN, NP, NZ, NN; for each pair the same underlying
operation is applied to the count-indicator tensors and to the
value-masked tensors.  Matrices are lists of rows; `tf.linalg.matmul`
is the usual row-by-column dot product. -/

def classPairs : List ((ℚ → ℚ → Bool) × (ℚ → ℚ → Bool)) :=
  [(pos_mask, pos_mask), (pos_mask, zero_mask), (pos_mask, neg_mask),
   (zero_mask, pos_mask), (zero_mask, zero_mask), (zero_mask, neg_mask),
   (neg_mask, pos_mask), (neg_mask, zero_mask), (neg_mask, neg_mask)]

/-- Dot product of two rational vectors. -/
def dotQ (a b : List ℚ) : ℚ := (List.zipWith (· * ·) a b).sum

/-- Matrix product `tf.linalg.matmul`, one output row per row of `x`. -/
def matmulQ (x y : List (List ℚ)) : List (List ℚ) :=
  x.map fun row => y.transpose.map fun col => dotQ row col

/-- Model of `matmul_classify` with already-determined thresholds `tx`, `ty`
(the values `x_threshold`, `y_threshold` hold after `classification_mask`
returns, whether explicit or percentile-derived).  Output positions are
flattened row-major; each position carries its 9 counts and 9 sums in
canonical term order. -/
def matmul_classify (x y : List (List ℚ)) (tx ty : ℚ) :
    List (List ℚ) × List (List ℚ) :=
  (x.flatMap fun row => y.transpose.map fun col =>
      classPairs.map fun pr =>
        dotQ (row.map (maskCount pr.1 tx)) (col.map (maskCount pr.2 ty)),
   x.flatMap fun row => y.transpose.map fun col =>
      classPairs.map fun pr =>
        dotQ (row.map (maskVal pr.1 tx)) (col.map (maskVal pr.2 ty)))

/-- Model of `multiply_classify` at one elementwise position `(v, w)`:
the nine per-term counts and sums for that position. -/
def multiply_classify_at (v w tx ty : ℚ) : List ℚ × List ℚ :=
  (classPairs.map fun pr => maskCount pr.1 tx v * maskCount pr.2 ty w,
   classPairs.map fun pr => maskVal pr.1 tx v * maskVal pr.2 ty w)

/-! ### Conservation lemmas for C1 -/

/-- The three value masks partition any rational: the masked values sum back
to the value itself. -/
theorem maskVal_partition (v t : ℚ) :
    maskVal pos_mask t v + maskVal zero_mask t v + maskVal neg_mask t v = v := by
  by_cases hz : zero_mask v t = true
  · have hp : pos_mask v t = false := by simp [pos_mask, hz]
    have hn : neg_mask v t = false := by simp [neg_mask, hz]
    simp [maskVal, hz, hp, hn]
  · have hz' : zero_mask v t = false := by simpa using hz
    have h0 : v ≠ 0 := by
      intro h; rw [h] at hz'; simp [zero_mask] at hz'
    rcases lt_trichotomy v 0 with h | h | h
    · have hp : pos_mask v t = false := by simp [pos_mask, h.not_lt]
      have hn : neg_mask v t = true := by simp [neg_mask, h, hz']
      simp [maskVal, hz', hp, hn]
    · exact absurd h h0
    · have hp : pos_mask v t = true := by simp [pos_mask, h, hz']
      have hn : neg_mask v t = false := by simp [neg_mask, h.not_lt]
      simp [maskVal, hz', hp, hn]

/-- Single-pair form of conservation: the nine masked products of a pair of
scalars sum to the plain product. -/
theorem nineTerm_product (v w tx ty : ℚ) :
    (classPairs.map fun pr => maskVal pr.1 tx v * maskVal pr.2 ty w).sum
      = v * w := by
  have hx := maskVal_partition v tx
  have hy := maskVal_partition w ty
  simp only [classPairs, List.map_cons, List.map_nil, List.sum_cons,
    List.sum_nil, add_zero]
  linear_combination
    (maskVal pos_mask tx v + maskVal zero_mask tx v + maskVal neg_mask tx v) * hy
      + w * hx

/-- Dot-product form of conservation, by induction along the two vectors. -/
theorem nineTerm_dot (tx ty : ℚ) :
    ∀ (a b : List ℚ),
      (classPairs.map fun pr =>
        dotQ (a.map (maskVal pr.1 tx)) (b.map (maskVal pr.2 ty))).sum
        = dotQ a b := by
  intro a
  induction a with
  | nil => intro b; simp [dotQ, classPairs]
  | cons v as ih =>
    intro b
    cases b with
    | nil => simp [dotQ, classPairs]
    | cons w bs =>
      have ih' := ih bs
      have hp := nineTerm_product v w tx ty
      simp only [classPairs, dotQ, List.map_cons, List.map_nil, List.sum_cons,
        List.sum_nil, add_zero, List.zipWith_cons_cons] at ih' hp ⊢
      linarith [ih', hp]

/-- C1: for any inputs and any thresholds (explicit or percentile-derived),
summing the nine per-term partial sums of `matmul_classify` at every output
position reproduces `matmul(x, y)` at that position; likewise for
`multiply_classify` at every elementwise position.  (Over the exact
rational model; the claim allows floating-point tolerance.) -/
theorem matmul_classify_conservation (x y : List (List ℚ)) (tx ty : ℚ) :
    ((matmul_classify x y tx ty).2.map List.sum = (matmulQ x y).flatten) ∧
    (∀ v w : ℚ, ((multiply_classify_at v w tx ty).2).sum = v * w) := by
  constructor
  · unfold matmul_classify matmulQ
    simp only [List.flatMap_def, List.map_flatten, List.map_map]
    apply congrArg List.flatten
    apply List.map_congr_left
    intro row _
    simp only [Function.comp_apply, List.map_map, Function.comp_def]
    apply List.map_congr_left
    intro col _
    exact nineTerm_dot tx ty row col
  · intro v w
    unfold multiply_classify_at
    exact nineTerm_product v w tx ty

/-! ### C3 and C10: the partition and its NaN boundary -/

/-- C3 (counterexample): on a NaN element the three masks of
`classification_mask` are all false, so it is not the case that every
element lands in exactly one class. -/
theorem classification_mask_nan_partition_cex :
    ¬ exactlyOneClass (pos_maskF .nan (.val 1)) (zero_maskF .nan (.val 1))
        (neg_maskF .nan (.val 1)) := by decide

/-- C3 (amended): for every non-NaN element and every threshold (derived or
explicit, even NaN), exactly one of `pos_mask`, `zero_mask`, `neg_mask`
is true. -/
theorem classification_mask_partition_amended (x t : PyFloat) (hx : x ≠ .nan) :
    exactlyOneClass (pos_maskF x t) (zero_maskF x t) (neg_maskF x t) := by
  obtain ⟨v, rfl⟩ : ∃ v, x = .val v := by
    cases x with
    | nan => exact absurd rfl hx
    | val v => exact ⟨v, rfl⟩
  unfold exactlyOneClass pos_maskF neg_maskF zero_maskF
  cases t with
  | nan =>
    simp only [PyFloat.eqZero, PyFloat.fabs, PyFloat.flt, PyFloat.fgt, Bool.or_false]
    rcases lt_trichotomy v 0 with h | h | h
    · right; right; simp [h, h.ne, h.not_lt]
    · right; left; simp [h]
    · left; simp [h, h.ne', h.not_lt]
  | val tv =>
    simp only [PyFloat.eqZero, PyFloat.fabs, PyFloat.flt, PyFloat.fgt]
    rcases lt_trichotomy v 0 with h | h | h
    · by_cases habs : |v| < tv
      · right; left; simp [h.ne, habs]
      · right; right; simp [h, h.ne, habs, h.not_lt]
    · right; left; simp [h]
    · by_cases habs : |v| < tv
      · right; left; simp [h.ne', habs]
      · left; simp [h, h.ne', habs, h.not_lt]

/-- C3 (witness): the amended partition at the concrete element 5 with
threshold 1. -/
theorem classification_mask_partition_amended_witness :
    exactlyOneClass (pos_maskF (.val 5) (.val 1)) (zero_maskF (.val 5) (.val 1))
      (neg_maskF (.val 5) (.val 1)) :=
  classification_mask_partition_amended (.val 5) (.val 1) (by simp)

/-- C10: a NaN element gets all three masks false, contributes 0 to every
term's count and sum (via `tf.cast` of a false mask and `tf.where` with a
false mask), and is in no class, so the exactly-one-class partition fails
at NaN. -/
theorem classification_mask_nan_no_class (t : PyFloat) :
    pos_maskF .nan t = false ∧ zero_maskF .nan t = false ∧
    neg_maskF .nan t = false ∧
    maskCountF (pos_maskF .nan t) = 0 ∧
    maskCountF (zero_maskF .nan t) = 0 ∧
    maskCountF (neg_maskF .nan t) = 0 ∧
    maskValF (pos_maskF .nan t) .nan = .val 0 ∧
    maskValF (zero_maskF .nan t) .nan = .val 0 ∧
    maskValF (neg_maskF .nan t) .nan = .val 0 ∧
    ¬ exactlyOneClass (pos_maskF .nan t) (zero_maskF .nan t) (neg_maskF .nan t) := by
  cases t with
  | nan => decide
  | val tv =>
    refine ⟨rfl, rfl, rfl, rfl, rfl, rfl, rfl, rfl, rfl, ?_⟩
    simp [exactlyOneClass, pos_maskF, zero_maskF, neg_maskF,
      PyFloat.eqZero, PyFloat.fabs, PyFloat.flt, PyFloat.fgt]

/-- C5: the code rejects a bare float for `thresholds`.  The docstrings (and
the spec) list a single float as a legal shape applying to both inputs, but
`t1, t2 = thresholds` raises an uncaught `TypeError` on a non-iterable
float; only the length-mismatch `ValueError` is caught and re-raised.  The
other four documented shapes behave as documented. -/
theorem parse_thresholds_single_float_bug :
    parse_thresholds_arg (.float 5) = .error .typeError ∧
    parse_thresholds_arg .none = .ok (none, none) ∧
    parse_thresholds_arg (.seq [some 1, some 2]) = .ok (some 1, some 2) ∧
    parse_thresholds_arg (.seq [some 1, none]) = .ok (some 1, none) ∧
    parse_thresholds_arg (.seq [none, some 2]) = .ok (none, some 2) ∧
    parse_thresholds_arg (.seq [none, none]) = .ok (none, none) ∧
    parse_thresholds_arg (.seq [some 1]) = .error .valueError ∧
    parse_thresholds_arg (.seq [some 1, some 2, some 3]) = .error .valueError := by
  refine ⟨rfl, rfl, rfl, rfl, rfl, rfl, rfl, rfl⟩

/-! ### Percentile-derived thresholds (`classification_mask`, lines 836-838)

When no explicit threshold is given the source derives one as
`tfp.stats.percentile(tf.abs(x), 100 * (1 - confidence), interpolation='midpoint')`.
The spec treats the percentile primitive as an external numeric operation
with the well-known midpoint semantics: with the data sorted ascending and
`d = (q/100) * (n-1)`, the result is the average of the entries at
positions `floor d` and `ceil d`. -/

def percentile_midpoint (xs : List ℚ) (q : ℚ) : ℚ :=
  let s := xs.insertionSort (· ≤ ·)
  let d : ℚ := q / 100 * ((s.length : ℚ) - 1)
  (s.getD ⌊d⌋.toNat 0 + s.getD ⌈d⌉.toNat 0) / 2

/-- Threshold derived from `confidence` for one input tensor (flattened),
source line 838. -/
def derived_threshold (xs : List ℚ) (confidence : ℚ) : ℚ :=
  percentile_midpoint (xs.map fun v => |v|) (100 * (1 - confidence))

/-- Number of elements classified Near-Zero at threshold `t`. -/
def zero_count (xs : List ℚ) (t : ℚ) : ℕ := xs.countP fun v => zero_mask v t

/-- Fraction of elements classified Near-Zero when the threshold is derived
from `confidence`. -/
def zero_fraction (xs : List ℚ) (c : ℚ) : ℚ :=
  (zero_count xs (derived_threshold xs c) : ℚ) / (xs.length : ℚ)

theorem sorted_getD_mono {s : List ℚ} (hs : s.Sorted (· ≤ ·)) {i j : ℕ}
    (hij : i ≤ j) (hj : j < s.length) : s.getD i 0 ≤ s.getD j 0 := by
  have hi : i < s.length := lt_of_le_of_lt hij hj
  rw [List.getD_eq_getElem _ _ hi, List.getD_eq_getElem _ _ hj]
  have h := hs.rel_get_of_le (a := ⟨i, hi⟩) (b := ⟨j, hj⟩) hij
  simpa using h

/-- The midpoint percentile is monotone in the percentage level. -/
theorem percentile_midpoint_mono (xs : List ℚ) (hne : xs ≠ []) {q1 q2 : ℚ}
    (h0 : 0 ≤ q1) (h12 : q1 ≤ q2) (h100 : q2 ≤ 100) :
    percentile_midpoint xs q1 ≤ percentile_midpoint xs q2 := by
  unfold percentile_midpoint
  have hs : (xs.insertionSort (· ≤ ·)).Sorted (· ≤ ·) := List.sorted_insertionSort _ _
  set s := xs.insertionSort (· ≤ ·) with hsdef
  have hlen : s.length = xs.length := List.length_insertionSort _ _
  have hpos : 0 < s.length := by
    rw [hlen]; exact List.length_pos.mpr hne
  have hone : (1:ℚ) ≤ (s.length : ℚ) := by exact_mod_cast hpos
  have hn1 : (0:ℚ) ≤ (s.length : ℚ) - 1 := by linarith
  set d1 : ℚ := q1 / 100 * ((s.length : ℚ) - 1) with hd1
  set d2 : ℚ := q2 / 100 * ((s.length : ℚ) - 1) with hd2
  have hd12 : d1 ≤ d2 := by
    apply mul_le_mul_of_nonneg_right _ hn1
    linarith
  have hd2top : d2 ≤ (s.length : ℚ) - 1 := by
    have hq : q2 / 100 ≤ 1 := by linarith
    nlinarith
  have hceil2 : ⌈d2⌉ ≤ (s.length : ℤ) - 1 := by
    rw [Int.ceil_le]; push_cast; linarith
  have hceil2n : ⌈d2⌉.toNat < s.length := by
    have := Int.toNat_le_toNat hceil2
    omega
  have hfl2 : ⌊d2⌋ ≤ ⌈d2⌉ := Int.floor_le_ceil d2
  have hfl2n : ⌊d2⌋.toNat < s.length := by
    have := Int.toNat_le_toNat (le_trans hfl2 hceil2)
    omega
  have h1 : s.getD ⌊d1⌋.toNat 0 ≤ s.getD ⌊d2⌋.toNat 0 :=
    sorted_getD_mono hs (Int.toNat_le_toNat (Int.floor_le_floor hd12)) hfl2n
  have h2 : s.getD ⌈d1⌉.toNat 0 ≤ s.getD ⌈d2⌉.toNat 0 :=
    sorted_getD_mono hs (Int.toNat_le_toNat (Int.ceil_le_ceil hd12)) hceil2n
  linarith

/-- The `zero_mask` predicate is monotone in the threshold. -/
theorem zero_mask_mono {v t t' : ℚ} (h : t ≤ t') (hv : zero_mask v t = true) :
    zero_mask v t' = true := by
  simp only [zero_mask, Bool.or_eq_true, decide_eq_true_eq] at hv ⊢
  rcases hv with h0 | hlt
  · exact Or.inl h0
  · exact Or.inr (lt_of_lt_of_le hlt h)

/-- C6 (amended): for a fixed input and no explicit threshold, increasing
`confidence` never increases (it can only decrease) the fraction of
elements classified Near-Zero.  The claim asserts the opposite direction
("never decreases"), which the counterexample refutes. -/
theorem zero_fraction_confidence_antitone (xs : List ℚ) (hne : xs ≠ [])
    {c1 c2 : ℚ} (hc1 : 0 ≤ c1) (h12 : c1 ≤ c2) (hc2 : c2 ≤ 1) :
    zero_fraction xs c2 ≤ zero_fraction xs c1 := by
  unfold zero_fraction zero_count derived_threshold
  have hmapne : xs.map (fun v => |v|) ≠ [] := by
    simpa using hne
  have hq : percentile_midpoint (xs.map fun v => |v|) (100 * (1 - c2))
      ≤ percentile_midpoint (xs.map fun v => |v|) (100 * (1 - c1)) :=
    percentile_midpoint_mono _ hmapne (by linarith) (by linarith) (by linarith)
  have hcount : (xs.countP fun v =>
        zero_mask v (percentile_midpoint (xs.map fun v => |v|) (100 * (1 - c2))))
      ≤ xs.countP fun v =>
        zero_mask v (percentile_midpoint (xs.map fun v => |v|) (100 * (1 - c1))) :=
    List.countP_mono_left fun v _ hv => zero_mask_mono hq hv
  have hlenpos : (0:ℚ) < (xs.length : ℚ) := by
    exact_mod_cast List.length_pos.mpr hne
  have hcast : ((xs.countP fun v =>
        zero_mask v (percentile_midpoint (xs.map fun v => |v|) (100 * (1 - c2)))) : ℚ)
      ≤ ((xs.countP fun v =>
        zero_mask v (percentile_midpoint (xs.map fun v => |v|) (100 * (1 - c1)))) : ℚ) := by
    exact_mod_cast hcount
  exact (div_le_div_iff_of_pos_right hlenpos).mpr hcast

/-- C6 (counterexample): with input `[1, 10]`, increasing confidence from 0
to 1 strictly decreases the Near-Zero fraction (from 1/2 to 0), refuting
"increasing confidence never decreases the fraction classified Near-Zero".
-/
theorem zero_fraction_confidence_cex :
    zero_fraction [1, 10] 1 < zero_fraction [1, 10] 0 := by
  norm_num [zero_fraction, zero_count, derived_threshold, percentile_midpoint,
    List.insertionSort, List.orderedInsert, List.getD, List.countP,
    List.countP.go, zero_mask]

/-- C6 (witness): the amended antitonicity applied at the concrete input
`[1, 10]` with confidences 0 and 1. -/
theorem zero_fraction_confidence_antitone_witness :
    ([1, 10] : List ℚ) ≠ [] ∧ (0:ℚ) ≤ 0 ∧ (0:ℚ) ≤ 1 ∧ (1:ℚ) ≤ 1 ∧
    zero_fraction [1, 10] 1 ≤ zero_fraction [1, 10] 0 :=
  ⟨by simp, le_refl 0, by norm_num, le_refl 1,
    zero_fraction_confidence_antitone [1, 10] (by simp) (le_refl 0)
      (by norm_num) (le_refl 1)⟩

/-- C7 (counterexample): with input `[1, 10]` and `confidence = 0`, the
derived threshold is the 100th percentile (= 10), but the element 10 is not
classified Near-Zero (the comparison is strict), refuting "every element is
classified Near-Zero". -/
theorem confidence_zero_not_all_near_zero_cex :
    zero_mask 10 (derived_threshold [1, 10] 0) = false ∧
    pos_mask 10 (derived_threshold [1, 10] 0) = true := by
  norm_num [derived_threshold, percentile_midpoint, List.insertionSort,
    List.orderedInsert, List.getD, zero_mask, pos_mask]

/-- C7 (amended): with `confidence = 0` and no explicit threshold, the
derived threshold is the 100th percentile of `abs(x)`, i.e. the maximum
absolute value; every element that is exactly zero or has absolute value
strictly below that threshold is Near-Zero, but a nonzero element attaining
the maximum absolute value is not Near-Zero (it is classified P or N). -/
theorem confidence_zero_threshold_amended (xs : List ℚ) (hne : xs ≠ []) :
    (∀ v ∈ xs, |v| ≤ derived_threshold xs 0) ∧
    (∃ v ∈ xs, |v| = derived_threshold xs 0) ∧
    (∀ v ∈ xs, v = 0 ∨ |v| < derived_threshold xs 0 →
      zero_mask v (derived_threshold xs 0) = true) ∧
    (∀ v ∈ xs, v ≠ 0 → |v| = derived_threshold xs 0 →
      zero_mask v (derived_threshold xs 0) = false ∧
      (pos_mask v (derived_threshold xs 0) = true ∨
        neg_mask v (derived_threshold xs 0) = true)) := by
  obtain ⟨m, hm⟩ : ∃ m, xs.length = m + 1 := by
    refine ⟨xs.length - 1, ?_⟩
    have := List.length_pos.mpr hne
    omega
  have hsorted : ((xs.map fun v => |v|).insertionSort (· ≤ ·)).Sorted (· ≤ ·) :=
    List.sorted_insertionSort _ _
  set s := (xs.map fun v => |v|).insertionSort (· ≤ ·) with hsdef
  have hslen : s.length = m + 1 := by
    rw [hsdef, List.length_insertionSort, List.length_map, hm]
  have key : derived_threshold xs 0 = s.getD m 0 := by
    unfold derived_threshold percentile_midpoint
    simp only [← hsdef, hslen]
    have hd : (100 * (1 - (0:ℚ))) / 100 * (((m+1 : ℕ) : ℚ) - 1) = (m : ℚ) := by
      push_cast; ring
    rw [hd, Int.floor_natCast, Int.ceil_natCast, Int.toNat_natCast]
    ring
  have hmax : ∀ a ∈ s, a ≤ s.getD m 0 := by
    intro a ha
    obtain ⟨i, hi⟩ := List.mem_iff_get.mp ha
    have hgd : s.getD i 0 = a := by
      rw [List.getD_eq_getElem _ _ i.isLt]
      simpa using hi
    rw [← hgd]
    have him : (i : ℕ) ≤ m := by
      have := i.isLt
      omega
    exact sorted_getD_mono hsorted him (by omega)
  have hmem : s.getD m 0 ∈ s := by
    rw [List.getD_eq_getElem _ _ (by omega)]
    exact List.getElem_mem _
  have hperm : s.Perm (xs.map fun v => |v|) := List.perm_insertionSort _ _
  refine ⟨?_, ?_, ?_, ?_⟩
  · intro v hv
    rw [key]
    exact hmax _ (hperm.mem_iff.mpr (List.mem_map_of_mem _ hv))
  · have : s.getD m 0 ∈ xs.map fun v => |v| := hperm.mem_iff.mp hmem
    obtain ⟨v, hv, hveq⟩ := List.mem_map.mp this
    exact ⟨v, hv, by rw [key, hveq]⟩
  · intro v _ hcase
    rcases hcase with h0 | hlt
    · simp [zero_mask, h0]
    · simp [zero_mask, hlt]
  · intro v _ hv0 hveq
    have hz : zero_mask v (derived_threshold xs 0) = false := by
      simp only [zero_mask, Bool.or_eq_false_iff, decide_eq_false_iff_not]
      exact ⟨hv0, by rw [← hveq]; exact lt_irrefl _⟩
    refine ⟨hz, ?_⟩
    rcases lt_trichotomy v 0 with h | h | h
    · right; simp [neg_mask, h, hz]
    · exact absurd h hv0
    · left; simp [pos_mask, h, hz]

/-- C7 (witness): the amended statement applied at the concrete input
`[1, 10]`. -/
theorem confidence_zero_threshold_amended_witness :
    ([1, 10] : List ℚ) ≠ [] ∧
    ((∀ v ∈ ([1, 10] : List ℚ), |v| ≤ derived_threshold [1, 10] 0) ∧
    (∃ v ∈ ([1, 10] : List ℚ), |v| = derived_threshold [1, 10] 0) ∧
    (∀ v ∈ ([1, 10] : List ℚ), v = 0 ∨ |v| < derived_threshold [1, 10] 0 →
      zero_mask v (derived_threshold [1, 10] 0) = true) ∧
    (∀ v ∈ ([1, 10] : List ℚ), v ≠ 0 → |v| = derived_threshold [1, 10] 0 →
      zero_mask v (derived_threshold [1, 10] 0) = false ∧
      (pos_mask v (derived_threshold [1, 10] 0) = true ∨
        neg_mask v (derived_threshold [1, 10] 0) = true))) :=
  ⟨by simp, confidence_zero_threshold_amended [1, 10] (by simp)⟩

/-! ### `np.argsort` / `np.take_along_axis` on the term axis

`np.argsort(keys)` returns the index permutation that sorts `keys`
ascending; `np.take_along_axis(xs, idx, axis=-1)` gathers `xs` at those
indices.  The source always applies one `argsort` result to all parallel
arrays (counts, sums, terms, masks), which is exactly `takeAlong` with a
shared index list.  Ties are modelled as resolved stably; every theorem
below is insensitive to tie order. -/

def takeAlong {α : Type} (xs : List α) (idx : List ℕ) (d : α) : List α :=
  idx.map fun i => xs.getD i d

def argsortBy {β : Type} [LinearOrder β] (d : β) (keys : List β) : List ℕ :=
  (List.range keys.length).insertionSort fun i j => keys.getD i d ≤ keys.getD j d

theorem takeAlong_length {α : Type} (xs : List α) (idx : List ℕ) (d : α) :
    (takeAlong xs idx d).length = idx.length := by
  simp [takeAlong]

theorem argsortBy_perm_range {β : Type} [LinearOrder β] (d : β) (keys : List β) :
    (argsortBy d keys).Perm (List.range keys.length) :=
  List.perm_insertionSort _ _

theorem argsortBy_length {β : Type} [LinearOrder β] (d : β) (keys : List β) :
    (argsortBy d keys).length = keys.length := by
  have := (argsortBy_perm_range d keys).length_eq
  simpa using this

theorem mem_range_perm_lt {l : List ℕ} {n i : ℕ} (hp : l.Perm (List.range n))
    (hi : i ∈ l) : i < n := by
  have := hp.mem_iff.mp hi
  simpa using this

theorem map_getD_range {α : Type} (xs : List α) (d : α) :
    (List.range xs.length).map (fun i => xs.getD i d) = xs := by
  apply List.ext_getElem
  · simp
  · intro i h1 h2
    simp only [List.getElem_map, List.getElem_range]
    exact List.getD_eq_getElem xs d h2

theorem takeAlong_perm {α : Type} (xs : List α) (idx : List ℕ) (d : α)
    (h : idx.Perm (List.range xs.length)) : (takeAlong xs idx d).Perm xs := by
  have h1 : (takeAlong xs idx d).Perm ((List.range xs.length).map fun i => xs.getD i d) :=
    List.Perm.map _ h
  rwa [map_getD_range] at h1

theorem takeAlong_getD {α : Type} (xs : List α) (idx : List ℕ) (d : α) {j : ℕ}
    (hj : j < idx.length) : (takeAlong xs idx d).getD j d = xs.getD (idx.getD j 0) d := by
  rw [List.getD_eq_getElem _ _ (by simpa [takeAlong] using hj)]
  simp only [takeAlong, List.getElem_map]
  congr 1
  exact (List.getD_eq_getElem idx 0 hj).symm

theorem takeAlong_mem_of {α : Type} {P : α → Prop} (xs : List α) (idx : List ℕ) (d : α)
    (hxs : ∀ x ∈ xs, P x) (hd : P d) : ∀ x ∈ takeAlong xs idx d, P x := by
  intro x hx
  simp only [takeAlong, List.mem_map] at hx
  obtain ⟨i, _, rfl⟩ := hx
  rcases lt_or_ge i xs.length with h | h
  · rw [List.getD_eq_getElem _ _ h]
    exact hxs _ (List.getElem_mem _)
  · rw [List.getD_eq_default _ _ h]
    exact hd

theorem takeAlong_comp {α : Type} (xs : List α) (i1 i2 : List ℕ) (d : α)
    (h : ∀ j ∈ i2, j < i1.length) :
    takeAlong (takeAlong xs i1 d) i2 d = takeAlong xs (takeAlong i1 i2 0) d := by
  simp only [takeAlong, List.map_map]
  apply List.map_congr_left
  intro j hj
  simp only [Function.comp_apply]
  rw [List.getD_eq_getElem _ _ (by simpa using h j hj), List.getElem_map]
  congr 1
  exact (List.getD_eq_getElem i1 0 (h j hj)).symm

theorem takeAlong_reverse {α : Type} (xs : List α) (idx : List ℕ) (d : α) :
    (takeAlong xs idx d).reverse = takeAlong xs idx.reverse d := by
  simp [takeAlong, List.map_reverse]

/-! ### `filter_classifications` (lines 947-1006) and its two phases
(lines 1161-1253), modelled per output position

Everything in the source is determined independently for each position of
the value tensor (its docstring says so); the model below is the
computation at one position, a list of 9 terms. -/

/-- One summand of `np.sum(sums * (sums > 0), axis=-1)`: the elementwise
product of a value with its positivity indicator. -/
def posIndicated (s : ℚ) : ℚ := s * (if 0 < s then 1 else 0)

/-- One summand of `np.sum(sums * (sums < 0), axis=-1)`. -/
def negIndicated (s : ℚ) : ℚ := s * (if s < 0 then 1 else 0)

/-- `pos_range` of `_partial_filter_by_sum` (line 1182). -/
def pos_range (sums : List ℚ) : ℚ := (sums.map posIndicated).sum

/-- `neg_range` of `_partial_filter_by_sum` (line 1183). -/
def neg_range (sums : List ℚ) : ℚ := |(sums.map negIndicated).sum|

/-- `abs_range` of `_partial_filter_by_sum` (line 1184). -/
def abs_range (sums : List ℚ) : ℚ := max (pos_range sums) (neg_range sums)

/-- The by-sum threshold mask (lines 1197-1200): walking the sorted sums
from the front, accumulate the positive cumulative sum `pc` and negative
cumulative sum `nc`; an entry is marked once
`max(pos_margin, |neg_margin|) >= threshold`. -/
def sumKeepMarks (thr : ℚ) (pc nc : ℚ) : List ℚ → List Bool
  | [] => []
  | s :: ss =>
    decide (thr ≤ max (pc + posIndicated s) |nc + negIndicated s|) ::
      sumKeepMarks thr (pc + posIndicated s) (nc + negIndicated s) ss

/-- The by-count threshold mask (lines 1244-1245): cumulative counts from
the front, marked once the margin reaches the threshold. -/
def countKeepMarks (thr : ℚ) (acc : ℚ) : List ℚ → List Bool
  | [] => []
  | c :: cs => decide (thr ≤ acc + c) :: countKeepMarks thr (acc + c) cs

/-- Model of `_partial_filter_by_sum` (lines 1161-1208): sort all four
parallel lists by `|sum|` ascending, OR the threshold mask into the carried
masks, and flip everything to largest-first order. -/
def filter_by_sum_phase (counts sums : List ℚ) (terms : List ℕ) (masks : List Bool)
    (completeness : ℚ) : List ℚ × List ℚ × List ℕ × List Bool :=
  let thr := abs_range sums * (1 - completeness)
  let so := argsortBy 0 (sums.map fun s => |s|)
  let sums' := takeAlong sums so 0
  ((takeAlong counts so 0).reverse, sums'.reverse, (takeAlong terms so 0).reverse,
    (List.zipWith (· || ·) (sumKeepMarks thr 0 0 sums') (takeAlong masks so false)).reverse)

/-- Model of `_partial_filter_by_count` (lines 1211-1253): the same shape
with the counts as sort key and cumulative-count threshold. -/
def filter_by_count_phase (counts sums : List ℚ) (terms : List ℕ) (masks : List Bool)
    (completeness : ℚ) : List ℚ × List ℚ × List ℕ × List Bool :=
  let thr := counts.sum * (1 - completeness)
  let so := argsortBy 0 counts
  let counts' := takeAlong counts so 0
  (counts'.reverse, (takeAlong sums so 0).reverse, (takeAlong terms so 0).reverse,
    (List.zipWith (· || ·) (countKeepMarks thr 0 counts') (takeAlong masks so false)).reverse)

/-- Canonical term order of `classify_terms` for the two-tensor case,
encoded by canonical index: 0..8 stand for PP, PZ, PN, ZP, ZZ, ZN, NP, NZ,
NN. -/
def canonicalTermsIdx : List ℕ := [0, 1, 2, 3, 4, 5, 6, 7, 8]

/-- numpy multiplication of a float array by a boolean mask array: `True`
acts as 1.0 and `False` as 0.0. -/
def boolToQ (b : Bool) : ℚ := if b then 1 else 0

/-- Model of `filter_classifications` (lines 947-1006) at one output
position: run the by-sum phase then the by-count phase starting from an
all-false mask, zero out the unretained counts and sums, and finally sort
by descending (masked) count.  Returns `(counts, sums, terms)`. -/
def filter_classifications (counts sums : List ℚ) (completeness : ℚ) :
    List ℚ × List ℚ × List ℕ :=
  let masks0 := List.replicate counts.length false
  let r1 := filter_by_sum_phase counts sums canonicalTermsIdx masks0 completeness
  let r2 := filter_by_count_phase r1.1 r1.2.1 r1.2.2.1 r1.2.2.2 completeness
  let cz := List.zipWith (fun c m => c * boolToQ m) r2.1 r2.2.2.2
  let sz := List.zipWith (fun s m => s * boolToQ m) r2.2.1 r2.2.2.2
  let so := argsortBy 0 (cz.map fun c => -c)
  (takeAlong cz so 0, takeAlong sz so 0, takeAlong r2.2.2.1 so 0)

/-- Model of `_fixargsort` (lines 1256-1295): double argsort of the
reference composed with the argsort of `a`.  Terms are compared through
their canonical indices; since `_fixargsort` is only ever applied to the
nine distinct term labels, and both argsorts inside it use one and the same
total order on those labels, the aligning permutation it returns (which is
unique for distinct values) does not depend on which total order that is,
so comparing canonical indices models comparing the label strings. -/
def fixargsort (a reference : List ℕ) : List ℕ :=
  takeAlong (argsortBy 0 a) (argsortBy 0 (argsortBy 0 reference)) 0

/-- Model of `_standardize_order` (lines 1299-1321): reorder counts, sums
and terms along the aligning permutation of the terms against the
canonical term order; this is the reordering part of `standardize` when a
terms array is supplied (line 1116). -/
def standardize_order (counts sums : List ℚ) (terms : List ℕ) :
    List ℚ × List ℚ × List ℕ :=
  let so := fixargsort terms canonicalTermsIdx
  (takeAlong counts so 0, takeAlong sums so 0, takeAlong terms so 0)

/-! ### Sum bookkeeping lemmas for the coverage proof -/

theorem posIndicated_nonneg (s : ℚ) : 0 ≤ posIndicated s := by
  unfold posIndicated
  split_ifs with h
  · linarith
  · simp

theorem negIndicated_nonpos (s : ℚ) : negIndicated s ≤ 0 := by
  unfold negIndicated
  split_ifs with h
  · linarith
  · simp

theorem pos_range_nonneg (sums : List ℚ) : 0 ≤ pos_range sums := by
  unfold pos_range
  apply List.sum_nonneg
  intro x hx
  obtain ⟨s, _, rfl⟩ := List.mem_map.mp hx
  exact posIndicated_nonneg s

theorem abs_range_nonneg (sums : List ℚ) : 0 ≤ abs_range sums :=
  le_trans (pos_range_nonneg sums) (le_max_left _ _)

theorem map_negIndicated_sum_nonpos (sums : List ℚ) :
    (sums.map negIndicated).sum ≤ 0 := by
  induction sums with
  | nil => simp
  | cons a tl ih =>
    simp only [List.map_cons, List.sum_cons]
    have := negIndicated_nonpos a
    linarith

/-- The negative extent equals the sum of the negated negative parts. -/
theorem neg_range_eq (sums : List ℚ) :
    neg_range sums = (sums.map fun s => -negIndicated s).sum := by
  unfold neg_range
  have hsum : (sums.map fun s => -negIndicated s).sum = -(sums.map negIndicated).sum := by
    induction sums with
    | nil => simp
    | cons a tl ih =>
      simp only [List.map_cons, List.sum_cons, ih]
      ring
  rw [hsum, abs_of_nonpos (map_negIndicated_sum_nonpos sums)]

theorem zipWith_map_same {α β γ : Type} (f : α → β → γ) (g1 : ℕ → α) (g2 : ℕ → β) :
    ∀ l : List ℕ, List.zipWith f (l.map g1) (l.map g2) = l.map fun i => f (g1 i) (g2 i) := by
  intro l
  induction l with
  | nil => rfl
  | cons a tl ih => simp [ih]

theorem zipWith_takeAlong {α β γ : Type} (f : α → β → γ) (xs : List α) (ms : List β)
    (idx : List ℕ) (dx : α) (dm : β) (dz : γ) (hlen : ms.length = xs.length)
    (hidx : ∀ i ∈ idx, i < xs.length) :
    List.zipWith f (takeAlong xs idx dx) (takeAlong ms idx dm)
      = takeAlong (List.zipWith f xs ms) idx dz := by
  unfold takeAlong
  rw [zipWith_map_same]
  apply List.map_congr_left
  intro i hi
  have hix : i < xs.length := hidx i hi
  have him : i < ms.length := by omega
  have hiz : i < (List.zipWith f xs ms).length := by
    simp [List.length_zipWith]; omega
  rw [List.getD_eq_getElem _ _ hix, List.getD_eq_getElem _ _ him,
    List.getD_eq_getElem _ _ hiz, List.getElem_zipWith]

theorem zipWith_sum_takeAlong (f : ℚ → Bool → ℚ) (xs : List ℚ) (ms : List Bool)
    (idx : List ℕ) (hlen : ms.length = xs.length)
    (hperm : idx.Perm (List.range xs.length)) :
    (List.zipWith f (takeAlong xs idx 0) (takeAlong ms idx false)).sum
      = (List.zipWith f xs ms).sum := by
  rw [zipWith_takeAlong f xs ms idx 0 false (f 0 false) hlen
    (fun i hi => mem_range_perm_lt hperm hi)]
  have hzlen : (List.zipWith f xs ms).length = xs.length := by
    rw [List.length_zipWith, hlen, min_self]
  exact ((takeAlong_perm _ idx _ (by rwa [hzlen])).sum_eq)

theorem zipWith_reverse {α β γ : Type} (f : α → β → γ) (xs : List α) (ms : List β)
    (hlen : ms.length = xs.length) :
    List.zipWith f xs.reverse ms.reverse = (List.zipWith f xs ms).reverse := by
  have hzlen : (List.zipWith f xs ms).length = xs.length := by
    rw [List.length_zipWith, hlen, min_self]
  apply List.ext_getElem
  · simp [List.length_zipWith]
  · intro i h1 h2
    simp only [List.length_zipWith, List.length_reverse] at h1 h2
    rw [List.getElem_zipWith, List.getElem_reverse, List.getElem_reverse,
      List.getElem_reverse, List.getElem_zipWith]
    congr 2 <;> rw [hzlen] <;> rw [hlen]

theorem zipWith_sum_reverse (f : ℚ → Bool → ℚ) (xs : List ℚ) (ms : List Bool)
    (hlen : ms.length = xs.length) :
    (List.zipWith f xs.reverse ms.reverse).sum = (List.zipWith f xs ms).sum := by
  rw [zipWith_reverse f xs ms hlen, List.sum_reverse]

theorem sumKeepMarks_length (thr : ℚ) :
    ∀ (ss : List ℚ) (pc nc : ℚ), (sumKeepMarks thr pc nc ss).length = ss.length := by
  intro ss
  induction ss with
  | nil => intro pc nc; rfl
  | cons s tl ih =>
    intro pc nc
    simp [sumKeepMarks, ih]

theorem countKeepMarks_length (thr : ℚ) :
    ∀ (cs : List ℚ) (acc : ℚ), (countKeepMarks thr acc cs).length = cs.length := by
  intro cs
  induction cs with
  | nil => intro acc; rfl
  | cons c tl ih =>
    intro acc
    simp [countKeepMarks, ih]

/-- Core bound for the by-sum phase, positive side: the positive parts of
the entries the threshold mask leaves unmarked total at most
`max (thr - pc) 0`, for any traversal order. -/
theorem sumKeep_unmasked_pos (thr : ℚ) :
    ∀ (ss : List ℚ) (pc nc : ℚ),
      (List.zipWith (fun s k => if k then 0 else posIndicated s) ss
        (sumKeepMarks thr pc nc ss)).sum ≤ max (thr - pc) 0 := by
  intro ss
  induction ss with
  | nil =>
    intro pc nc
    simp [sumKeepMarks]
  | cons s tl ih =>
    intro pc nc
    simp only [sumKeepMarks, List.zipWith_cons_cons, List.sum_cons]
    have hrest := ih (pc + posIndicated s) (nc + negIndicated s)
    have hp := posIndicated_nonneg s
    by_cases hk : thr ≤ max (pc + posIndicated s) |nc + negIndicated s|
    · rw [decide_eq_true hk, if_pos rfl]
      have h1 : max (thr - (pc + posIndicated s)) 0 ≤ max (thr - pc) 0 := by
        apply max_le_max _ (le_refl 0)
        linarith
      linarith
    · rw [decide_eq_false hk, if_neg Bool.false_ne_true]
      push_neg at hk
      have hpc : pc + posIndicated s < thr :=
        lt_of_le_of_lt (le_max_left _ _) hk
      have hmax : max (thr - (pc + posIndicated s)) 0 = thr - (pc + posIndicated s) := by
        apply max_eq_left
        linarith
      rw [hmax] at hrest
      have : thr - pc ≤ max (thr - pc) 0 := le_max_left _ _
      linarith

/-- Core bound for the by-sum phase, negative side. -/
theorem sumKeep_unmasked_neg (thr : ℚ) :
    ∀ (ss : List ℚ) (pc nc : ℚ), nc ≤ 0 →
      (List.zipWith (fun s k => if k then 0 else -negIndicated s) ss
        (sumKeepMarks thr pc nc ss)).sum ≤ max (thr + nc) 0 := by
  intro ss
  induction ss with
  | nil =>
    intro pc nc _
    simp [sumKeepMarks]
  | cons s tl ih =>
    intro pc nc hnc
    simp only [sumKeepMarks, List.zipWith_cons_cons, List.sum_cons]
    have hn := negIndicated_nonpos s
    have hnc' : nc + negIndicated s ≤ 0 := by linarith
    have hrest := ih (pc + posIndicated s) (nc + negIndicated s) hnc'
    by_cases hk : thr ≤ max (pc + posIndicated s) |nc + negIndicated s|
    · rw [decide_eq_true hk, if_pos rfl]
      have h1 : max (thr + (nc + negIndicated s)) 0 ≤ max (thr + nc) 0 := by
        apply max_le_max _ (le_refl 0)
        linarith
      linarith
    · rw [decide_eq_false hk, if_neg Bool.false_ne_true]
      push_neg at hk
      have habs : |nc + negIndicated s| = -(nc + negIndicated s) := abs_of_nonpos hnc'
      have hnlt : -(nc + negIndicated s) < thr := by
        have := lt_of_le_of_lt (le_max_right (pc + posIndicated s) _) hk
        rwa [habs] at this
      have hmax : max (thr + (nc + negIndicated s)) 0 = thr + (nc + negIndicated s) := by
        apply max_eq_left
        linarith
      rw [hmax] at hrest
      have : thr + nc ≤ max (thr + nc) 0 := le_max_left _ _
      linarith

/-- Core bound for the by-count phase. -/
theorem countKeep_unmasked (thr : ℚ) :
    ∀ (cs : List ℚ) (acc : ℚ), (∀ c ∈ cs, 0 ≤ c) →
      (List.zipWith (fun c k => if k then 0 else c) cs
        (countKeepMarks thr acc cs)).sum ≤ max (thr - acc) 0 := by
  intro cs
  induction cs with
  | nil =>
    intro acc _
    simp [countKeepMarks]
  | cons c tl ih =>
    intro acc hnn
    simp only [countKeepMarks, List.zipWith_cons_cons, List.sum_cons]
    have hc : 0 ≤ c := hnn c (List.mem_cons_self _ _)
    have hrest := ih (acc + c) fun x hx => hnn x (List.mem_cons_of_mem _ hx)
    by_cases hk : thr ≤ acc + c
    · rw [decide_eq_true hk, if_pos rfl]
      have h1 : max (thr - (acc + c)) 0 ≤ max (thr - acc) 0 := by
        apply max_le_max _ (le_refl 0)
        linarith
      linarith
    · rw [decide_eq_false hk, if_neg Bool.false_ne_true]
      push_neg at hk
      have hmax : max (thr - (acc + c)) 0 = thr - (acc + c) := by
        apply max_eq_left
        linarith
      rw [hmax] at hrest
      have : thr - acc ≤ max (thr - acc) 0 := le_max_left _ _
      linarith

/-- Splitting a masked sum and its complement recovers the full sum. -/
theorem masked_split (f : ℚ → ℚ) :
    ∀ (xs : List ℚ) (ms : List Bool), ms.length = xs.length →
      (List.zipWith (fun x m => if m then f x else 0) xs ms).sum
        + (List.zipWith (fun x m => if m then 0 else f x) xs ms).sum
        = (xs.map f).sum := by
  intro xs
  induction xs with
  | nil =>
    intro ms _
    simp
  | cons x tl ih =>
    intro ms hlen
    cases ms with
    | nil => simp at hlen
    | cons m mtl =>
      simp only [List.zipWith_cons_cons, List.sum_cons, List.map_cons]
      have := ih mtl (by simpa using hlen)
      cases m <;> simp <;> linarith

/-- OR-ing extra marks into the mask can only increase a masked sum of
nonnegative summands (right operand of the OR). -/
theorem masked_or_right (f : ℚ → ℚ) :
    ∀ (xs : List ℚ) (ks ms : List Bool), (∀ x ∈ xs, 0 ≤ f x) → ks.length = ms.length →
      (List.zipWith (fun x m => if m then f x else 0) xs ms).sum
        ≤ (List.zipWith (fun x m => if m then f x else 0) xs
            (List.zipWith (· || ·) ks ms)).sum := by
  intro xs
  induction xs with
  | nil =>
    intro ks ms _ _
    simp
  | cons x tl ih =>
    intro ks ms hnn hlen
    cases ks with
    | nil =>
      cases ms with
      | nil => simp
      | cons m mtl => simp at hlen
    | cons k ktl =>
      cases ms with
      | nil => simp at hlen
      | cons m mtl =>
        simp only [List.zipWith_cons_cons, List.sum_cons]
        have hx : 0 ≤ f x := hnn x (List.mem_cons_self _ _)
        have := ih ktl mtl (fun y hy => hnn y (List.mem_cons_of_mem _ hy))
          (by simpa using hlen)
        cases k <;> cases m <;> simp <;> linarith

/-- The mask after the OR dominates the freshly computed marks (left
operand of the OR). -/
theorem masked_or_left (f : ℚ → ℚ) :
    ∀ (xs : List ℚ) (ks ms : List Bool), (∀ x ∈ xs, 0 ≤ f x) → ks.length = ms.length →
      (List.zipWith (fun x m => if m then f x else 0) xs ks).sum
        ≤ (List.zipWith (fun x m => if m then f x else 0) xs
            (List.zipWith (· || ·) ks ms)).sum := by
  intro xs
  induction xs with
  | nil =>
    intro ks ms _ _
    simp
  | cons x tl ih =>
    intro ks ms hnn hlen
    cases ks with
    | nil => simp
    | cons k ktl =>
      cases ms with
      | nil => simp at hlen
      | cons m mtl =>
        simp only [List.zipWith_cons_cons, List.sum_cons]
        have hx : 0 ≤ f x := hnn x (List.mem_cons_self _ _)
        have := ih ktl mtl (fun y hy => hnn y (List.mem_cons_of_mem _ hy))
          (by simpa using hlen)
        cases k <;> cases m <;> simp <;> linarith

theorem getD_replicate {α : Type} (n : ℕ) (d : α) (i : ℕ) :
    (List.replicate n d).getD i d = d := by
  rcases lt_or_ge i n with h | h
  · rw [List.getD_eq_getElem _ _ (by simpa using h)]
    simp
  · rw [List.getD_eq_default]
    simpa using h

theorem takeAlong_replicate {α : Type} (n : ℕ) (d : α) (idx : List ℕ) :
    takeAlong (List.replicate n d) idx d = idx.map fun _ => d := by
  unfold takeAlong
  apply List.map_congr_left
  intro i _
  exact getD_replicate n d i

theorem zipWith_or_map_false :
    ∀ (ks : List Bool) (l : List ℕ), ks.length ≤ l.length →
      List.zipWith (· || ·) ks (l.map fun _ => false) = ks := by
  intro ks
  induction ks with
  | nil => intro l _; simp
  | cons k ktl ih =>
    intro l hlen
    cases l with
    | nil => simp at hlen
    | cons a atl =>
      simp only [List.map_cons, List.zipWith_cons_cons, Bool.or_false]
      rw [ih atl (by simpa using hlen)]

theorem boolToQ_mul_eq (x : ℚ) (m : Bool) : x * boolToQ m = if m then x else 0 := by
  cases m <;> simp [boolToQ]

theorem posIndicated_masked (s : ℚ) (m : Bool) :
    posIndicated (s * boolToQ m) = if m then posIndicated s else 0 := by
  cases m <;> simp [boolToQ, posIndicated]

theorem negIndicated_masked (s : ℚ) (m : Bool) :
    -negIndicated (s * boolToQ m) = if m then -negIndicated s else 0 := by
  cases m <;> simp [boolToQ, negIndicated]

/-- Sum of `f` over the entries whose mask is set. -/
def maskedSum (f : ℚ → ℚ) (xs : List ℚ) (ms : List Bool) : ℚ :=
  (List.zipWith (fun x m => if m then f x else 0) xs ms).sum

/-- After the by-sum phase starting from an all-false mask, the retained
entries carry at least `pos_range - threshold` of positive sum and at
least `neg_range - threshold` of negative magnitude, and the phase is a
permutation of its input. -/
theorem filter_by_sum_phase_retention (counts sums : List ℚ) (terms : List ℕ) (comp : ℚ)
    (hlen : counts.length = sums.length) (hc1 : comp ≤ 1) :
    pos_range sums - abs_range sums * (1 - comp)
      ≤ maskedSum posIndicated
          (filter_by_sum_phase counts sums terms (List.replicate counts.length false) comp).2.1
          (filter_by_sum_phase counts sums terms (List.replicate counts.length false) comp).2.2.2 ∧
    neg_range sums - abs_range sums * (1 - comp)
      ≤ maskedSum (fun s => -negIndicated s)
          (filter_by_sum_phase counts sums terms (List.replicate counts.length false) comp).2.1
          (filter_by_sum_phase counts sums terms (List.replicate counts.length false) comp).2.2.2 ∧
    (filter_by_sum_phase counts sums terms (List.replicate counts.length false) comp).1.Perm counts ∧
    (filter_by_sum_phase counts sums terms (List.replicate counts.length false) comp).2.1.Perm sums ∧
    (filter_by_sum_phase counts sums terms (List.replicate counts.length false) comp).1.length
      = counts.length ∧
    (filter_by_sum_phase counts sums terms (List.replicate counts.length false) comp).2.1.length
      = counts.length ∧
    (filter_by_sum_phase counts sums terms (List.replicate counts.length false) comp).2.2.2.length
      = counts.length := by
  have hthr : 0 ≤ abs_range sums * (1 - comp) :=
    mul_nonneg (abs_range_nonneg sums) (by linarith)
  dsimp only [filter_by_sum_phase]
  set thr := abs_range sums * (1 - comp) with hthrdef
  set so := argsortBy 0 (sums.map fun s => |s|) with hsodef
  have hsoperm : so.Perm (List.range sums.length) := by
    have := argsortBy_perm_range 0 (sums.map fun s => |s|)
    rwa [List.length_map] at this
  have hsolen : so.length = sums.length := by
    have := hsoperm.length_eq
    simpa using this
  set ssorted := takeAlong sums so 0 with hssdef
  have hsslen : ssorted.length = sums.length := by
    rw [hssdef, takeAlong_length, hsolen]
  have hssperm : ssorted.Perm sums := takeAlong_perm sums so 0 hsoperm
  set keep := sumKeepMarks thr 0 0 ssorted with hkeepdef
  have hkeeplen : keep.length = sums.length := by
    rw [hkeepdef, sumKeepMarks_length, hsslen]
  have hmask : List.zipWith (· || ·) keep
      (takeAlong (List.replicate counts.length false) so false) = keep := by
    rw [takeAlong_replicate, zipWith_or_map_false]
    rw [hkeeplen, hsolen]
  rw [hmask]
  have hcperm : (takeAlong counts so 0).Perm counts :=
    takeAlong_perm counts so 0 (by rwa [hlen])
  have hsplitbound : ∀ f : ℚ → ℚ,
      (List.zipWith (fun x k => if k then 0 else f x) ssorted keep).sum ≤ thr →
      (ssorted.map f).sum - thr ≤ maskedSum f ssorted.reverse keep.reverse := by
    intro f hub
    have hsplit := masked_split f ssorted keep (by rw [hkeeplen, hsslen])
    have hrev : maskedSum f ssorted.reverse keep.reverse = maskedSum f ssorted keep := by
      unfold maskedSum
      exact zipWith_sum_reverse _ _ _ (by rw [hkeeplen, hsslen])
    rw [hrev]
    unfold maskedSum
    linarith
  refine ⟨?_, ?_, ?_, ?_, ?_, ?_, ?_⟩
  · have hub := sumKeep_unmasked_pos thr ssorted 0 0
    rw [sub_zero] at hub
    have hub' : (List.zipWith (fun x k => if k then 0 else posIndicated x) ssorted keep).sum
        ≤ thr := le_trans hub (by rw [max_eq_left hthr])
    have h := hsplitbound posIndicated hub'
    have hmapsum : (ssorted.map posIndicated).sum = pos_range sums := by
      unfold pos_range
      exact (hssperm.map posIndicated).sum_eq
    rw [hmapsum] at h
    exact h
  · have hub := sumKeep_unmasked_neg thr ssorted 0 0 (le_refl 0)
    rw [add_zero] at hub
    have hub' : (List.zipWith (fun x k => if k then 0 else -negIndicated x) ssorted keep).sum
        ≤ thr := le_trans hub (by rw [max_eq_left hthr])
    have h := hsplitbound (fun s => -negIndicated s) hub'
    have hmapsum : (ssorted.map fun s => -negIndicated s).sum = neg_range sums := by
      rw [neg_range_eq]
      exact (hssperm.map _).sum_eq
    rw [hmapsum] at h
    exact h
  · exact (List.reverse_perm _).trans hcperm
  · exact (List.reverse_perm _).trans hssperm
  · rw [List.length_reverse, takeAlong_length, hsolen, hlen]
  · rw [List.length_reverse, hsslen, hlen]
  · rw [List.length_reverse, hkeeplen, hlen]

/-- After the by-count phase, any nonnegatively-weighted masked sum can only
grow (the phase only ORs marks into the mask and permutes), the retained
count is at least `completeness` times the total, and the phase is a
permutation of its input. -/
theorem filter_by_count_phase_retention (c1 s1 : List ℚ) (t1 : List ℕ) (m1 : List Bool)
    (comp : ℚ) (hsc : s1.length = c1.length) (hmc : m1.length = c1.length)
    (hnn : ∀ x ∈ c1, 0 ≤ x) (hc1 : comp ≤ 1) :
    (∀ f : ℚ → ℚ, (∀ x, 0 ≤ f x) →
      maskedSum f s1 m1
        ≤ maskedSum f (filter_by_count_phase c1 s1 t1 m1 comp).2.1
            (filter_by_count_phase c1 s1 t1 m1 comp).2.2.2) ∧
    c1.sum * comp
      ≤ maskedSum id (filter_by_count_phase c1 s1 t1 m1 comp).1
          (filter_by_count_phase c1 s1 t1 m1 comp).2.2.2 ∧
    (filter_by_count_phase c1 s1 t1 m1 comp).1.Perm c1 ∧
    (filter_by_count_phase c1 s1 t1 m1 comp).2.1.Perm s1 ∧
    (filter_by_count_phase c1 s1 t1 m1 comp).1.length = c1.length ∧
    (filter_by_count_phase c1 s1 t1 m1 comp).2.1.length = c1.length ∧
    (filter_by_count_phase c1 s1 t1 m1 comp).2.2.2.length = c1.length := by
  have hsum0 : 0 ≤ c1.sum := List.sum_nonneg hnn
  have hthr : 0 ≤ c1.sum * (1 - comp) := mul_nonneg hsum0 (by linarith)
  dsimp only [filter_by_count_phase]
  set thr := c1.sum * (1 - comp) with hthrdef
  set so := argsortBy 0 c1 with hsodef
  have hsoperm : so.Perm (List.range c1.length) := argsortBy_perm_range 0 c1
  have hsolen : so.length = c1.length := by
    have := hsoperm.length_eq
    simpa using this
  set csorted := takeAlong c1 so 0 with hcsdef
  have hcslen : csorted.length = c1.length := by
    rw [hcsdef, takeAlong_length, hsolen]
  have hcsperm : csorted.Perm c1 := takeAlong_perm c1 so 0 hsoperm
  have hcsnn : ∀ x ∈ csorted, 0 ≤ x :=
    takeAlong_mem_of c1 so 0 hnn (le_refl 0)
  set keep := countKeepMarks thr 0 csorted with hkeepdef
  have hkeeplen : keep.length = c1.length := by
    rw [hkeepdef, countKeepMarks_length, hcslen]
  set msorted := takeAlong m1 so false with hmsdef
  have hmslen : msorted.length = c1.length := by
    rw [hmsdef, takeAlong_length, hsolen]
  set ssorted := takeAlong s1 so 0 with hssdef
  have hsslen : ssorted.length = c1.length := by
    rw [hssdef, takeAlong_length, hsolen]
  set ormask := List.zipWith (· || ·) keep msorted with hormdef
  have hormlen : ormask.length = c1.length := by
    rw [hormdef, List.length_zipWith, hkeeplen, hmslen, min_self]
  refine ⟨?_, ?_, ?_, ?_, ?_, ?_, ?_⟩
  · intro f hf
    have h1 : maskedSum f ssorted.reverse ormask.reverse = maskedSum f ssorted ormask := by
      unfold maskedSum
      exact zipWith_sum_reverse _ _ _ (by rw [hormlen, hsslen])
    have h2 : maskedSum f ssorted msorted ≤ maskedSum f ssorted ormask := by
      unfold maskedSum
      rw [hormdef]
      exact masked_or_right f ssorted keep msorted (fun x _ => hf x)
        (by rw [hkeeplen, hmslen])
    have h3 : maskedSum f ssorted msorted = maskedSum f s1 m1 := by
      unfold maskedSum
      rw [hssdef, hmsdef]
      exact zipWith_sum_takeAlong _ s1 m1 so (by rw [hmc, hsc])
        (by rwa [hsc])
    rw [h1]
    rw [h3] at h2
    exact h2
  · have h1 : maskedSum id csorted.reverse ormask.reverse = maskedSum id csorted ormask := by
      unfold maskedSum
      exact zipWith_sum_reverse _ _ _ (by rw [hormlen, hcslen])
    have h2 : maskedSum id csorted keep ≤ maskedSum id csorted ormask := by
      unfold maskedSum
      rw [hormdef]
      exact masked_or_left id csorted keep msorted hcsnn (by rw [hkeeplen, hmslen])
    have hsplit := masked_split id csorted keep (by rw [hkeeplen, hcslen])
    have hub := countKeep_unmasked thr csorted 0 hcsnn
    rw [sub_zero, max_eq_left hthr] at hub
    have hmapid : (csorted.map id).sum = c1.sum := by
      rw [List.map_id]
      exact hcsperm.sum_eq
    rw [h1]
    unfold maskedSum at hsplit h2 ⊢
    have : c1.sum * comp = c1.sum - thr := by
      rw [hthrdef]
      ring
    rw [this]
    rw [hmapid] at hsplit
    simp only [id_eq] at hsplit h2 hub ⊢
    linarith
  · exact (List.reverse_perm _).trans hcsperm
  · exact (List.reverse_perm _).trans (takeAlong_perm s1 so 0 (by rwa [hsc]))
  · rw [List.length_reverse, hcslen]
  · rw [List.length_reverse, hsslen]
  · rw [List.length_reverse, hormlen]

theorem map_posIndicated_masked :
    ∀ (xs : List ℚ) (ms : List Bool),
      ((List.zipWith (fun s m => s * boolToQ m) xs ms).map posIndicated).sum
        = maskedSum posIndicated xs ms := by
  intro xs
  induction xs with
  | nil => intro ms; simp [maskedSum]
  | cons x tl ih =>
    intro ms
    cases ms with
    | nil => simp [maskedSum]
    | cons m mtl =>
      simp only [maskedSum, List.zipWith_cons_cons, List.map_cons, List.sum_cons] at ih ⊢
      rw [posIndicated_masked, ih mtl]

theorem map_negIndicated_masked :
    ∀ (xs : List ℚ) (ms : List Bool),
      ((List.zipWith (fun s m => s * boolToQ m) xs ms).map fun s => -negIndicated s).sum
        = maskedSum (fun s => -negIndicated s) xs ms := by
  intro xs
  induction xs with
  | nil => intro ms; simp [maskedSum]
  | cons x tl ih =>
    intro ms
    cases ms with
    | nil => simp [maskedSum]
    | cons m mtl =>
      simp only [maskedSum, List.zipWith_cons_cons, List.map_cons, List.sum_cons] at ih ⊢
      rw [negIndicated_masked, ih mtl]

theorem sum_mul_mask :
    ∀ (xs : List ℚ) (ms : List Bool),
      (List.zipWith (fun c m => c * boolToQ m) xs ms).sum = maskedSum id xs ms := by
  intro xs
  induction xs with
  | nil => intro ms; simp [maskedSum]
  | cons x tl ih =>
    intro ms
    cases ms with
    | nil => simp [maskedSum]
    | cons m mtl =>
      simp only [maskedSum, List.zipWith_cons_cons, List.sum_cons] at ih ⊢
      rw [boolToQ_mul_eq, ih mtl]
      simp

/-- C2: after `filter_classifications(counts, sums, completeness)`, at a
position (independently of all others), the retained terms carry sum-
magnitude at least `completeness` times the original
`abs_range = max(total positive sum, |total negative sum|)`, and retained
total count at least `completeness` times the original total count; the
OR-combination of the by-sum and by-count retained sets can only exceed
each phase's own bound. -/
theorem filter_classifications_coverage (counts sums : List ℚ) (completeness : ℚ)
    (h9c : counts.length = 9) (h9s : sums.length = 9)
    (hnn : ∀ a ∈ counts, 0 ≤ a) (hc0 : 0 ≤ completeness) (hc1 : completeness ≤ 1) :
    completeness * abs_range sums
        ≤ abs_range (filter_classifications counts sums completeness).2.1 ∧
    completeness * counts.sum
        ≤ (filter_classifications counts sums completeness).1.sum := by
  have hlen : counts.length = sums.length := by rw [h9c, h9s]
  dsimp only [filter_classifications]
  obtain ⟨hpos1, hneg1, hcperm1, hsperm1, hclen1, hslen1, hmlen1⟩ :=
    filter_by_sum_phase_retention counts sums canonicalTermsIdx completeness hlen hc1
  set r1 := filter_by_sum_phase counts sums canonicalTermsIdx
    (List.replicate counts.length false) completeness with hr1def
  have hnn1 : ∀ x ∈ r1.1, 0 ≤ x := fun x hx => hnn x (hcperm1.mem_iff.mp hx)
  have hsc1 : r1.2.1.length = r1.1.length := by rw [hclen1, hslen1]
  have hmc1 : r1.2.2.2.length = r1.1.length := by rw [hclen1, hmlen1]
  obtain ⟨hmono2, hcount2, hcperm2, hsperm2, hclen2, hslen2, hmlen2⟩ :=
    filter_by_count_phase_retention r1.1 r1.2.1 r1.2.2.1 r1.2.2.2 completeness
      hsc1 hmc1 hnn1 hc1
  set r2 := filter_by_count_phase r1.1 r1.2.1 r1.2.2.1 r1.2.2.2 completeness with hr2def
  set cz := List.zipWith (fun c m => c * boolToQ m) r2.1 r2.2.2.2 with hczdef
  set sz := List.zipWith (fun s m => s * boolToQ m) r2.2.1 r2.2.2.2 with hszdef
  set so3 := argsortBy 0 (cz.map fun c => -c) with hso3def
  clear_value r1 r2 cz sz so3
  have hczlen : cz.length = r1.1.length := by
    rw [hczdef, List.length_zipWith, hclen2, hmlen2, min_self]
  have hszlen : sz.length = r1.1.length := by
    rw [hszdef, List.length_zipWith, hslen2, hmlen2, min_self]
  have hso3perm : so3.Perm (List.range cz.length) := by
    have h := argsortBy_perm_range 0 (cz.map fun c => -c)
    rw [List.length_map] at h
    rw [hso3def]
    exact h
  have hso3perms : so3.Perm (List.range sz.length) := by
    have h := hso3perm
    rw [hczlen, ← hszlen] at h
    exact h
  constructor
  · -- sum magnitude coverage
    have hpermout : (takeAlong sz so3 0).Perm sz := takeAlong_perm sz so3 0 hso3perms
    have hposout : pos_range (takeAlong sz so3 0) = pos_range sz := by
      unfold pos_range
      exact (hpermout.map posIndicated).sum_eq
    have hnegout : neg_range (takeAlong sz so3 0) = neg_range sz := by
      unfold neg_range
      rw [(hpermout.map negIndicated).sum_eq]
    have hposz : pos_range sz = maskedSum posIndicated r2.2.1 r2.2.2.2 := by
      unfold pos_range
      rw [hszdef]
      exact map_posIndicated_masked r2.2.1 r2.2.2.2
    have hnegz : neg_range sz = maskedSum (fun s => -negIndicated s) r2.2.1 r2.2.2.2 := by
      rw [neg_range_eq, hszdef]
      exact map_negIndicated_masked r2.2.1 r2.2.2.2
    have hp2 := hmono2 posIndicated posIndicated_nonneg
    have hn2 := hmono2 (fun s => -negIndicated s) (fun s => neg_nonneg.mpr (negIndicated_nonpos s))
    have hpos : pos_range sums - abs_range sums * (1 - completeness)
        ≤ pos_range (takeAlong sz so3 0) := by
      rw [hposout, hposz]
      exact le_trans hpos1 hp2
    have hneg : neg_range sums - abs_range sums * (1 - completeness)
        ≤ neg_range (takeAlong sz so3 0) := by
      rw [hnegout, hnegz]
      exact le_trans hneg1 hn2
    have heq : completeness * abs_range sums
        = abs_range sums - abs_range sums * (1 - completeness) := by ring
    rw [heq]
    rcases max_cases (pos_range sums) (neg_range sums) with ⟨hm, _⟩ | ⟨hm, _⟩
    · have habs : abs_range sums = pos_range sums := hm
      calc abs_range sums - abs_range sums * (1 - completeness)
          = pos_range sums - abs_range sums * (1 - completeness) := by rw [habs]
        _ ≤ pos_range (takeAlong sz so3 0) := hpos
        _ ≤ abs_range (takeAlong sz so3 0) := le_max_left _ _
    · have habs : abs_range sums = neg_range sums := hm
      calc abs_range sums - abs_range sums * (1 - completeness)
          = neg_range sums - abs_range sums * (1 - completeness) := by rw [habs]
        _ ≤ neg_range (takeAlong sz so3 0) := hneg
        _ ≤ abs_range (takeAlong sz so3 0) := le_max_right _ _
  · -- count coverage
    have hpermout : (takeAlong cz so3 0).Perm cz := takeAlong_perm cz so3 0 hso3perm
    have hsum : (takeAlong cz so3 0).sum = cz.sum := hpermout.sum_eq
    have hcz : cz.sum = maskedSum id r2.1 r2.2.2.2 := by
      rw [hczdef]
      exact sum_mul_mask r2.1 r2.2.2.2
    have hc1sum : r1.1.sum = counts.sum := hcperm1.sum_eq
    rw [hsum, hcz]
    calc completeness * counts.sum = r1.1.sum * completeness := by
          rw [hc1sum]; ring
      _ ≤ maskedSum id r2.1 r2.2.2.2 := hcount2

/-- C2 (witness): the coverage guarantee applied at a concrete position
with counts `[2,1,0,...]`, sums `[4,-1,0,...]` and completeness 1/2. -/
theorem filter_classifications_coverage_witness :
    ([2, 1, 0, 0, 0, 0, 0, 0, 0] : List ℚ).length = 9 ∧
    ([4, -1, 0, 0, 0, 0, 0, 0, 0] : List ℚ).length = 9 ∧
    (∀ a ∈ ([2, 1, 0, 0, 0, 0, 0, 0, 0] : List ℚ), 0 ≤ a) ∧
    (0:ℚ) ≤ 1/2 ∧ (1/2:ℚ) ≤ 1 ∧
    ((1/2 : ℚ) * abs_range [4, -1, 0, 0, 0, 0, 0, 0, 0]
        ≤ abs_range (filter_classifications [2, 1, 0, 0, 0, 0, 0, 0, 0]
            [4, -1, 0, 0, 0, 0, 0, 0, 0] (1/2)).2.1 ∧
      (1/2 : ℚ) * ([2, 1, 0, 0, 0, 0, 0, 0, 0] : List ℚ).sum
        ≤ (filter_classifications [2, 1, 0, 0, 0, 0, 0, 0, 0]
            [4, -1, 0, 0, 0, 0, 0, 0, 0] (1/2)).1.sum) :=
  ⟨rfl, rfl, by norm_num [List.forall_mem_cons], by norm_num, by norm_num,
    filter_classifications_coverage [2, 1, 0, 0, 0, 0, 0, 0, 0]
      [4, -1, 0, 0, 0, 0, 0, 0, 0] (1/2) rfl rfl
      (by norm_num [List.forall_mem_cons]) (by norm_num) (by norm_num)⟩

/-! ### Alignment properties of `_fixargsort` -/

theorem argsortBy_sorted {β : Type} [LinearOrder β] (d : β) (keys : List β) :
    (argsortBy d keys).Pairwise fun i j => keys.getD i d ≤ keys.getD j d := by
  haveI h1 : IsTotal ℕ fun i j => keys.getD i d ≤ keys.getD j d :=
    ⟨fun a b => le_total _ _⟩
  haveI h2 : IsTrans ℕ fun i j => keys.getD i d ≤ keys.getD j d :=
    ⟨fun _ _ _ hab hbc => le_trans hab hbc⟩
  exact List.sorted_insertionSort _ _

theorem takeAlong_argsort_sorted {β : Type} [LinearOrder β] (d : β) (keys : List β) :
    (takeAlong keys (argsortBy d keys) d).Pairwise (· ≤ ·) := by
  unfold takeAlong
  exact List.Pairwise.map _ (fun _ _ h => h) (argsortBy_sorted d keys)

theorem range_sorted_le (n : ℕ) : (List.range n).Pairwise (· ≤ ·) :=
  (List.pairwise_lt_range n).imp le_of_lt

/-- Sorting a list that is a permutation of `range n` by its own values
recovers `range n`. -/
theorem takeAlong_argsort_self {τ : List ℕ} (hperm : τ.Perm (List.range τ.length)) :
    takeAlong τ (argsortBy 0 τ) 0 = List.range τ.length := by
  apply List.eq_of_perm_of_sorted
    ((takeAlong_perm τ _ 0 (argsortBy_perm_range 0 τ)).trans hperm)
    (takeAlong_argsort_sorted 0 τ)
    (range_sorted_le τ.length)

theorem getD_range (n j : ℕ) (hj : j < n) : (List.range n).getD j 0 = j := by
  rw [List.getD_eq_getElem _ _ (by simpa using hj)]
  simp

/-- Right inverse at the level of entries. -/
theorem argsort_getD_right_inv {τ : List ℕ} (hperm : τ.Perm (List.range τ.length)) :
    ∀ j < τ.length, τ.getD ((argsortBy 0 τ).getD j 0) 0 = j := by
  intro j hj
  have hlen : (argsortBy 0 τ).length = τ.length := argsortBy_length 0 τ
  have h := takeAlong_argsort_self hperm
  have h2 : (takeAlong τ (argsortBy 0 τ) 0).getD j 0 = (List.range τ.length).getD j 0 := by
    rw [h]
  rw [takeAlong_getD τ _ 0 (by rwa [hlen]), getD_range _ _ hj] at h2
  exact h2

/-- Left inverse at the level of entries, using distinctness. -/
theorem argsort_getD_left_inv {τ : List ℕ} (hperm : τ.Perm (List.range τ.length))
    (hnd : τ.Nodup) : ∀ p < τ.length, (argsortBy 0 τ).getD (τ.getD p 0) 0 = p := by
  intro p hp
  have hlen : (argsortBy 0 τ).length = τ.length := argsortBy_length 0 τ
  have hτp : τ.getD p 0 < τ.length := by
    rw [List.getD_eq_getElem _ _ hp]
    exact mem_range_perm_lt hperm (List.getElem_mem _)
  have hρ : (argsortBy 0 τ).getD (τ.getD p 0) 0 < τ.length := by
    rw [List.getD_eq_getElem _ _ (by rwa [hlen])]
    exact mem_range_perm_lt (argsortBy_perm_range 0 τ) (List.getElem_mem _)
  have h1 : τ.getD ((argsortBy 0 τ).getD (τ.getD p 0) 0) 0 = τ.getD p 0 :=
    argsort_getD_right_inv hperm _ hτp
  have h2 : τ[(argsortBy 0 τ).getD (τ.getD p 0) 0] = τ[p] := by
    rw [← List.getD_eq_getElem τ 0 hρ, ← List.getD_eq_getElem τ 0 hp]
    exact h1
  exact (List.Nodup.getElem_inj_iff hnd).mp h2

/-- Applying a permutation after pulling a list back along its inverse
recovers the list. -/
theorem takeAlong_pullback {α : Type} (ms : List α) (idx : List ℕ) (d : α)
    (hperm : idx.Perm (List.range ms.length)) :
    takeAlong (takeAlong ms (argsortBy 0 idx) d) idx d = ms := by
  have hlen : idx.length = ms.length := by
    have := hperm.length_eq
    simpa using this
  have hperm' : idx.Perm (List.range idx.length) := by rwa [hlen]
  have hnd : idx.Nodup := hperm.nodup_iff.mpr (List.nodup_range _)
  have hρlen : (argsortBy 0 idx).length = idx.length := argsortBy_length 0 idx
  apply List.ext_getElem
  · rw [takeAlong_length, hlen]
  · intro p hp hpm
    have hplt : p < idx.length := by
      rw [takeAlong_length] at hp
      exact hp
    have hidxp : idx.getD p 0 < idx.length := by
      rw [List.getD_eq_getElem _ _ hplt]
      exact mem_range_perm_lt hperm' (List.getElem_mem _)
    have h0 : (takeAlong (takeAlong ms (argsortBy 0 idx) d) idx d).getD p d
        = (takeAlong ms (argsortBy 0 idx) d).getD (idx.getD p 0) d :=
      takeAlong_getD _ idx d hplt
    have h1 : (takeAlong ms (argsortBy 0 idx) d).getD (idx.getD p 0) d
        = ms.getD ((argsortBy 0 idx).getD (idx.getD p 0) 0) d :=
      takeAlong_getD ms _ d (by rwa [hρlen])
    have h2 : (argsortBy 0 idx).getD (idx.getD p 0) 0 = p :=
      argsort_getD_left_inv hperm' hnd p hplt
    have hfin : (takeAlong (takeAlong ms (argsortBy 0 idx) d) idx d).getD p d
        = ms.getD p d := by
      rw [h0, h1, h2]
    rw [List.getD_eq_getElem _ _ hp, List.getD_eq_getElem _ _ hpm] at hfin
    exact hfin

/-- Correctness of `_fixargsort`: applied to a list of distinct values that
is a permutation of the reference, the returned indices reorder the list
into exactly the reference order. -/
theorem fixargsort_align (a ref : List ℕ) (hperm : a.Perm ref) (hnd : a.Nodup) :
    takeAlong a (fixargsort a ref) 0 = ref := by
  have hlen : ref.length = a.length := hperm.length_eq.symm
  have hσperm : (argsortBy 0 a).Perm (List.range a.length) := argsortBy_perm_range 0 a
  have hσlen : (argsortBy 0 a).length = a.length := argsortBy_length 0 a
  have hτperm : (argsortBy 0 ref).Perm (List.range ref.length) := argsortBy_perm_range 0 ref
  have hτlen : (argsortBy 0 ref).length = ref.length := argsortBy_length 0 ref
  have hμperm : (argsortBy 0 (argsortBy 0 ref)).Perm (List.range (argsortBy 0 ref).length) :=
    argsortBy_perm_range 0 (argsortBy 0 ref)
  have hμlen : (argsortBy 0 (argsortBy 0 ref)).length = ref.length := by
    rw [argsortBy_length, hτlen]
  have hSa : (takeAlong a (argsortBy 0 a) 0).Pairwise (· ≤ ·) := takeAlong_argsort_sorted 0 a
  have hSr : (takeAlong ref (argsortBy 0 ref) 0).Pairwise (· ≤ ·) :=
    takeAlong_argsort_sorted 0 ref
  have hSaSr : takeAlong a (argsortBy 0 a) 0 = takeAlong ref (argsortBy 0 ref) 0 := by
    have hp1 : (takeAlong a (argsortBy 0 a) 0).Perm a := takeAlong_perm a _ 0 hσperm
    have hp2 : (takeAlong ref (argsortBy 0 ref) 0).Perm ref := takeAlong_perm ref _ 0 hτperm
    exact List.eq_of_perm_of_sorted ((hp1.trans hperm).trans hp2.symm) hSa hSr
  have hinv : takeAlong (argsortBy 0 ref) (argsortBy 0 (argsortBy 0 ref)) 0
      = List.range (argsortBy 0 ref).length :=
    takeAlong_argsort_self (by rwa [hτlen])
  unfold fixargsort
  apply List.ext_getElem
  · rw [takeAlong_length, takeAlong_length, hμlen, hlen]
  · intro j hjL hjr
    have hj : j < ref.length := hjr
    have hjmu : j < (argsortBy 0 (argsortBy 0 ref)).length := by
      rw [hμlen]
      exact hj
    have htl : j < (takeAlong (argsortBy 0 a) (argsortBy 0 (argsortBy 0 ref)) 0).length := by
      rw [takeAlong_length, hμlen]
      exact hj
    have hmuj : (argsortBy 0 (argsortBy 0 ref)).getD j 0 < a.length := by
      rw [List.getD_eq_getElem _ _ hjmu]
      have hm := mem_range_perm_lt hμperm (List.getElem_mem hjmu)
      rw [hτlen, hlen] at hm
      exact hm
    have hmujσ : (argsortBy 0 (argsortBy 0 ref)).getD j 0 < (argsortBy 0 a).length := by
      rw [hσlen]
      exact hmuj
    have hmujτ : (argsortBy 0 (argsortBy 0 ref)).getD j 0 < (argsortBy 0 ref).length := by
      rw [hτlen, hlen]
      exact hmuj
    have e0 : (takeAlong a (takeAlong (argsortBy 0 a) (argsortBy 0 (argsortBy 0 ref)) 0) 0).getD j 0
        = a.getD ((takeAlong (argsortBy 0 a) (argsortBy 0 (argsortBy 0 ref)) 0).getD j 0) 0 :=
      takeAlong_getD a _ 0 htl
    have e1 : (takeAlong (argsortBy 0 a) (argsortBy 0 (argsortBy 0 ref)) 0).getD j 0
        = (argsortBy 0 a).getD ((argsortBy 0 (argsortBy 0 ref)).getD j 0) 0 :=
      takeAlong_getD _ _ 0 hjmu
    have e2 : a.getD ((argsortBy 0 a).getD ((argsortBy 0 (argsortBy 0 ref)).getD j 0) 0) 0
        = (takeAlong a (argsortBy 0 a) 0).getD ((argsortBy 0 (argsortBy 0 ref)).getD j 0) 0 :=
      (takeAlong_getD a (argsortBy 0 a) 0 hmujσ).symm
    have e3 : (takeAlong ref (argsortBy 0 ref) 0).getD ((argsortBy 0 (argsortBy 0 ref)).getD j 0) 0
        = ref.getD ((argsortBy 0 ref).getD ((argsortBy 0 (argsortBy 0 ref)).getD j 0) 0) 0 :=
      takeAlong_getD ref _ 0 hmujτ
    have e4 : (argsortBy 0 ref).getD ((argsortBy 0 (argsortBy 0 ref)).getD j 0) 0 = j := by
      have hc := congrArg (fun l => List.getD l j 0) hinv
      simp only at hc
      rw [takeAlong_getD _ _ 0 hjmu] at hc
      rw [hc]
      exact getD_range _ _ (by rw [hτlen]; exact hj)
    have echain : (takeAlong a (takeAlong (argsortBy 0 a) (argsortBy 0 (argsortBy 0 ref)) 0) 0).getD j 0
        = ref.getD j 0 := by
      rw [e0, e1, e2, hSaSr, e3, e4]
    rw [List.getD_eq_getElem _ _ hjL, List.getD_eq_getElem _ _ hjr] at echain
    exact echain

theorem filter_by_sum_phase_eq (c s : List ℚ) (t : List ℕ) (m : List Bool) (comp : ℚ) :
    filter_by_sum_phase c s t m comp
      = ((takeAlong c (argsortBy 0 (s.map fun x => |x|)) 0).reverse,
         (takeAlong s (argsortBy 0 (s.map fun x => |x|)) 0).reverse,
         (takeAlong t (argsortBy 0 (s.map fun x => |x|)) 0).reverse,
         (List.zipWith (· || ·)
            (sumKeepMarks (abs_range s * (1 - comp)) 0 0
              (takeAlong s (argsortBy 0 (s.map fun x => |x|)) 0))
            (takeAlong m (argsortBy 0 (s.map fun x => |x|)) false)).reverse) := rfl

theorem filter_by_count_phase_eq (c s : List ℚ) (t : List ℕ) (m : List Bool) (comp : ℚ) :
    filter_by_count_phase c s t m comp
      = ((takeAlong c (argsortBy 0 c) 0).reverse,
         (takeAlong s (argsortBy 0 c) 0).reverse,
         (takeAlong t (argsortBy 0 c) 0).reverse,
         (List.zipWith (· || ·)
            (countKeepMarks (c.sum * (1 - comp)) 0 (takeAlong c (argsortBy 0 c) 0))
            (takeAlong m (argsortBy 0 c) false)).reverse) := rfl

theorem standardize_order_eq (c s : List ℚ) (t : List ℕ) :
    standardize_order c s t
      = (takeAlong c (fixargsort t canonicalTermsIdx) 0,
         takeAlong s (fixargsort t canonicalTermsIdx) 0,
         takeAlong t (fixargsort t canonicalTermsIdx) 0) := rfl

theorem filter_classifications_eq (c s : List ℚ) (comp : ℚ)
    (r2 : List ℚ × List ℚ × List ℕ × List Bool)
    (hr2 : r2 = filter_by_count_phase
      (filter_by_sum_phase c s canonicalTermsIdx (List.replicate c.length false) comp).1
      (filter_by_sum_phase c s canonicalTermsIdx (List.replicate c.length false) comp).2.1
      (filter_by_sum_phase c s canonicalTermsIdx (List.replicate c.length false) comp).2.2.1
      (filter_by_sum_phase c s canonicalTermsIdx (List.replicate c.length false) comp).2.2.2
      comp) :
    filter_classifications c s comp
      = (takeAlong (List.zipWith (fun a b => a * boolToQ b) r2.1 r2.2.2.2)
           (argsortBy 0 ((List.zipWith (fun a b => a * boolToQ b) r2.1 r2.2.2.2).map
             fun x => -x)) 0,
         takeAlong (List.zipWith (fun a b => a * boolToQ b) r2.2.1 r2.2.2.2)
           (argsortBy 0 ((List.zipWith (fun a b => a * boolToQ b) r2.1 r2.2.2.2).map
             fun x => -x)) 0,
         takeAlong r2.2.2.1
           (argsortBy 0 ((List.zipWith (fun a b => a * boolToQ b) r2.1 r2.2.2.2).map
             fun x => -x)) 0) := by
  subst hr2
  rfl

theorem filter_by_sum_phase_channels (c s : List ℚ) (t : List ℕ) (m : List Bool) (comp : ℚ)
    (hsc : s.length = c.length) :
    ∃ I : List ℕ, I.Perm (List.range c.length) ∧
      (filter_by_sum_phase c s t m comp).1 = takeAlong c I 0 ∧
      (filter_by_sum_phase c s t m comp).2.1 = takeAlong s I 0 ∧
      (filter_by_sum_phase c s t m comp).2.2.1 = takeAlong t I 0 ∧
      (filter_by_sum_phase c s t m comp).2.2.2.length = c.length := by
  refine ⟨(argsortBy 0 (s.map fun x => |x|)).reverse, ?_, ?_, ?_, ?_, ?_⟩
  · have hp := argsortBy_perm_range 0 (s.map fun x => |x|)
    rw [List.length_map, hsc] at hp
    exact (List.reverse_perm _).trans hp
  · rw [filter_by_sum_phase_eq]
    exact takeAlong_reverse c _ 0
  · rw [filter_by_sum_phase_eq]
    exact takeAlong_reverse s _ 0
  · rw [filter_by_sum_phase_eq]
    exact takeAlong_reverse t _ 0
  · rw [filter_by_sum_phase_eq]
    have hso : (argsortBy 0 (s.map fun x => |x|)).length = c.length := by
      rw [argsortBy_length, List.length_map, hsc]
    rw [List.length_reverse, List.length_zipWith, sumKeepMarks_length,
      takeAlong_length, takeAlong_length, hso, min_self]

theorem filter_by_count_phase_channels (c s : List ℚ) (t : List ℕ) (m : List Bool)
    (comp : ℚ) :
    ∃ I : List ℕ, I.Perm (List.range c.length) ∧
      (filter_by_count_phase c s t m comp).1 = takeAlong c I 0 ∧
      (filter_by_count_phase c s t m comp).2.1 = takeAlong s I 0 ∧
      (filter_by_count_phase c s t m comp).2.2.1 = takeAlong t I 0 ∧
      (filter_by_count_phase c s t m comp).2.2.2.length = c.length := by
  refine ⟨(argsortBy 0 c).reverse, ?_, ?_, ?_, ?_, ?_⟩
  · exact (List.reverse_perm _).trans (argsortBy_perm_range 0 c)
  · rw [filter_by_count_phase_eq]
    exact takeAlong_reverse c _ 0
  · rw [filter_by_count_phase_eq]
    exact takeAlong_reverse s _ 0
  · rw [filter_by_count_phase_eq]
    exact takeAlong_reverse t _ 0
  · rw [filter_by_count_phase_eq]
    rw [List.length_reverse, List.length_zipWith, countKeepMarks_length,
      takeAlong_length, takeAlong_length, argsortBy_length, min_self]

/-- Structural form of `filter_classifications`: each output channel is the
corresponding input channel (counts/sums zeroed through one shared mask
`M`, terms untouched) rearranged by one shared per-position permutation
`J`. -/
theorem filter_classifications_channels (counts sums : List ℚ) (comp : ℚ)
    (h9c : counts.length = 9) (h9s : sums.length = 9) :
    ∃ (J : List ℕ) (M : List Bool),
      J.Perm (List.range 9) ∧ M.length = 9 ∧
      (filter_classifications counts sums comp).1
        = takeAlong (List.zipWith (fun a b => a * boolToQ b) counts M) J 0 ∧
      (filter_classifications counts sums comp).2.1
        = takeAlong (List.zipWith (fun a b => a * boolToQ b) sums M) J 0 ∧
      (filter_classifications counts sums comp).2.2
        = takeAlong canonicalTermsIdx J 0 := by
  obtain ⟨I1, hI1perm, hc1, hs1, ht1, hm1len⟩ :=
    filter_by_sum_phase_channels counts sums canonicalTermsIdx
      (List.replicate counts.length false) comp (by rw [h9c, h9s])
  set r1 := filter_by_sum_phase counts sums canonicalTermsIdx
    (List.replicate counts.length false) comp with hr1def
  clear_value r1
  obtain ⟨I2', hI2'perm, hc2, hs2, ht2, hm2len⟩ :=
    filter_by_count_phase_channels r1.1 r1.2.1 r1.2.2.1 r1.2.2.2 comp
  set r2 := filter_by_count_phase r1.1 r1.2.1 r1.2.2.1 r1.2.2.2 comp with hr2def
  clear_value r2
  have hI1len : I1.length = 9 := by
    have := hI1perm.length_eq
    rw [h9c] at this
    simpa using this
  have hr11len : r1.1.length = 9 := by
    rw [hc1, takeAlong_length, hI1len]
  have hI2'lt : ∀ j ∈ I2', j < I1.length := by
    intro j hj
    have := mem_range_perm_lt hI2'perm hj
    rw [hr11len] at this
    rw [hI1len]
    exact this
  have hc2' : r2.1 = takeAlong counts (takeAlong I1 I2' 0) 0 := by
    rw [hc2, hc1, takeAlong_comp counts I1 I2' 0 hI2'lt]
  have hs2' : r2.2.1 = takeAlong sums (takeAlong I1 I2' 0) 0 := by
    rw [hs2, hs1, takeAlong_comp sums I1 I2' 0 hI2'lt]
  have ht2' : r2.2.2.1 = takeAlong canonicalTermsIdx (takeAlong I1 I2' 0) 0 := by
    rw [ht2, ht1, takeAlong_comp canonicalTermsIdx I1 I2' 0 hI2'lt]
  set I2 := takeAlong I1 I2' 0 with hI2def
  have hI2perm : I2.Perm (List.range 9) := by
    have h1 : I2.Perm I1 := by
      rw [hI2def]
      apply takeAlong_perm I1 I2' 0
      rw [hI1len, ← hr11len]
      exact hI2'perm
    have h2 := hI1perm
    rw [h9c] at h2
    exact h1.trans h2
  have hI2len : I2.length = 9 := by
    have := hI2perm.length_eq
    simpa using this
  have hm2len9 : r2.2.2.2.length = 9 := by
    rw [hm2len, hr11len]
  set M := takeAlong r2.2.2.2 (argsortBy 0 I2) false with hMdef
  have hMlen : M.length = 9 := by
    rw [hMdef, takeAlong_length, argsortBy_length, hI2len]
  have hpull : takeAlong M I2 false = r2.2.2.2 := by
    rw [hMdef]
    apply takeAlong_pullback r2.2.2.2 I2 false
    rw [hm2len9]
    exact hI2perm
  have hI2lt : ∀ i ∈ I2, i < 9 := fun i hi => mem_range_perm_lt hI2perm hi
  have hcz : List.zipWith (fun a b => a * boolToQ b) r2.1 r2.2.2.2
      = takeAlong (List.zipWith (fun a b => a * boolToQ b) counts M) I2 0 := by
    rw [hc2', ← hpull]
    exact zipWith_takeAlong _ counts M I2 0 false 0 (by rw [hMlen, h9c])
      (fun i hi => by rw [h9c]; exact hI2lt i hi)
  have hsz : List.zipWith (fun a b => a * boolToQ b) r2.2.1 r2.2.2.2
      = takeAlong (List.zipWith (fun a b => a * boolToQ b) sums M) I2 0 := by
    rw [hs2', ← hpull]
    exact zipWith_takeAlong _ sums M I2 0 false 0 (by rw [hMlen, h9s])
      (fun i hi => by rw [h9s]; exact hI2lt i hi)
  have hfc := filter_classifications_eq counts sums comp r2 (by rw [hr2def, hr1def])
  have hczlen : (List.zipWith (fun a b => a * boolToQ b) counts M).length = 9 := by
    rw [List.length_zipWith, hMlen, h9c, min_self]
  have hczlen' : (List.zipWith (fun a b => a * boolToQ b) r2.1 r2.2.2.2).length = 9 := by
    rw [hcz, takeAlong_length, hI2len]
  set so3 := argsortBy 0 ((List.zipWith (fun a b => a * boolToQ b) r2.1 r2.2.2.2).map
    fun x => -x) with hso3def
  have hso3perm : so3.Perm (List.range 9) := by
    have h := argsortBy_perm_range 0
      ((List.zipWith (fun a b => a * boolToQ b) r2.1 r2.2.2.2).map fun x => -x)
    rw [List.length_map, hczlen'] at h
    rw [hso3def]
    exact h
  have hso3lt : ∀ j ∈ so3, j < I2.length := by
    intro j hj
    rw [hI2len]
    exact mem_range_perm_lt hso3perm hj
  refine ⟨takeAlong I2 so3 0, M, ?_, hMlen, ?_, ?_, ?_⟩
  · have h1 : (takeAlong I2 so3 0).Perm I2 := by
      apply takeAlong_perm I2 so3 0
      rw [hI2len]
      exact hso3perm
    exact h1.trans hI2perm
  · rw [hfc]
    show takeAlong (List.zipWith (fun a b => a * boolToQ b) r2.1 r2.2.2.2) so3 0
      = takeAlong (List.zipWith (fun a b => a * boolToQ b) counts M) (takeAlong I2 so3 0) 0
    rw [hcz, takeAlong_comp _ I2 so3 0 hso3lt]
  · rw [hfc]
    show takeAlong (List.zipWith (fun a b => a * boolToQ b) r2.2.1 r2.2.2.2) so3 0
      = takeAlong (List.zipWith (fun a b => a * boolToQ b) sums M) (takeAlong I2 so3 0) 0
    rw [hsz, takeAlong_comp _ I2 so3 0 hso3lt]
  · rw [hfc]
    show takeAlong r2.2.2.1 so3 0 = takeAlong canonicalTermsIdx (takeAlong I2 so3 0) 0
    rw [ht2', takeAlong_comp _ I2 so3 0 hso3lt]

theorem canonicalTermsIdx_eq_range : canonicalTermsIdx = List.range 9 := by decide

theorem takeAlong_range_self (n : ℕ) (K : List ℕ) (h : ∀ k ∈ K, k < n) :
    takeAlong (List.range n) K 0 = K := by
  unfold takeAlong
  have hmap : K.map (fun i => (List.range n).getD i 0) = K.map id := by
    apply List.map_congr_left
    intro i hi
    simp only [id_eq]
    exact getD_range n i (h i hi)
  rw [hmap, List.map_id]

/-- C4: for canonical-order inputs, `standardize` applied to the triple
returned by `filter_classifications` undoes the per-position permutation
introduced by filtering: the result is exactly the original canonical-order
counts and sums with the unretained terms zeroed (through one boolean
retention mask `M`), with the terms channel back in canonical order. -/
theorem standardize_filter_roundtrip (counts sums : List ℚ) (comp : ℚ)
    (h9c : counts.length = 9) (h9s : sums.length = 9) :
    ∃ M : List Bool, M.length = 9 ∧
      standardize_order (filter_classifications counts sums comp).1
          (filter_classifications counts sums comp).2.1
          (filter_classifications counts sums comp).2.2
        = (List.zipWith (fun a b => a * boolToQ b) counts M,
           List.zipWith (fun a b => a * boolToQ b) sums M,
           canonicalTermsIdx) := by
  obtain ⟨J, M, hJperm, hMlen, hcch, hsch, htch⟩ :=
    filter_classifications_channels counts sums comp h9c h9s
  refine ⟨M, hMlen, ?_⟩
  set t' := takeAlong canonicalTermsIdx J 0 with htdef
  have hJlen : J.length = 9 := by simpa using hJperm.length_eq
  have ht'len : t'.length = 9 := by rw [htdef, takeAlong_length, hJlen]
  have ht'perm : t'.Perm canonicalTermsIdx := by
    rw [htdef]
    apply takeAlong_perm canonicalTermsIdx J 0
    have hcl : canonicalTermsIdx.length = 9 := rfl
    rw [hcl]
    exact hJperm
  have ht'nd : t'.Nodup := ht'perm.nodup_iff.mpr (by decide)
  have halign : takeAlong t' (fixargsort t' canonicalTermsIdx) 0 = canonicalTermsIdx :=
    fixargsort_align t' canonicalTermsIdx ht'perm ht'nd
  set fix := fixargsort t' canonicalTermsIdx with hfixdef
  have hfixperm : fix.Perm (List.range 9) := by
    rw [hfixdef]
    unfold fixargsort
    have hσlen9 : (argsortBy 0 t').length = 9 := by rw [argsortBy_length, ht'len]
    have hidx : (argsortBy 0 (argsortBy 0 canonicalTermsIdx)).Perm
        (List.range (argsortBy 0 t').length) := by
      rw [hσlen9]
      have h := argsortBy_perm_range 0 (argsortBy 0 canonicalTermsIdx)
      have hcl : (argsortBy 0 canonicalTermsIdx).length = 9 := by
        rw [argsortBy_length]
        rfl
      rwa [hcl] at h
    have hperm1 : (takeAlong (argsortBy 0 t') (argsortBy 0 (argsortBy 0 canonicalTermsIdx)) 0).Perm
        (argsortBy 0 t') := takeAlong_perm _ _ 0 hidx
    have hperm2 := argsortBy_perm_range 0 t'
    rw [ht'len] at hperm2
    exact hperm1.trans hperm2
  have hfixlt : ∀ j ∈ fix, j < J.length := by
    intro j hj
    rw [hJlen]
    exact mem_range_perm_lt hfixperm hj
  set K := takeAlong J fix 0 with hKdef
  have hKperm : K.Perm (List.range 9) := by
    have h1 : K.Perm J := by
      rw [hKdef]
      exact takeAlong_perm J fix 0 (by rw [hJlen]; exact hfixperm)
    exact h1.trans hJperm
  have hKlt : ∀ k ∈ K, k < 9 := fun k hk => mem_range_perm_lt hKperm hk
  have hK : K = canonicalTermsIdx := by
    have h1 : takeAlong canonicalTermsIdx K 0 = canonicalTermsIdx := by
      rw [hKdef, ← takeAlong_comp canonicalTermsIdx J fix 0 hfixlt, ← htdef]
      exact halign
    have h2 : takeAlong canonicalTermsIdx K 0 = K := by
      rw [canonicalTermsIdx_eq_range]
      exact takeAlong_range_self 9 K hKlt
    rw [← h2, h1]
  have hczlen : (List.zipWith (fun a b => a * boolToQ b) counts M).length = 9 := by
    rw [List.length_zipWith, hMlen, h9c, min_self]
  have hszlen : (List.zipWith (fun a b => a * boolToQ b) sums M).length = 9 := by
    rw [List.length_zipWith, hMlen, h9s, min_self]
  have hfin : ∀ (X : List ℚ), X.length = 9 → takeAlong X K 0 = X := by
    intro X hX
    rw [hK, canonicalTermsIdx_eq_range, ← hX]
    unfold takeAlong
    exact map_getD_range X 0
  rw [standardize_order_eq, hcch, hsch, htch, ← hfixdef]
  rw [takeAlong_comp _ J fix 0 hfixlt]
  rw [takeAlong_comp _ J fix 0 hfixlt]
  rw [← hKdef]
  rw [halign]
  rw [hfin _ hczlen, hfin _ hszlen]

/-- Concrete instance of the filter/standardize round trip. -/
theorem standardize_filter_roundtrip_witness :
    (([2, 1, 0, 0, 0, 0, 0, 0, 0] : List ℚ).length = 9 ∧
      ([4, -1, 0, 0, 0, 0, 0, 0, 0] : List ℚ).length = 9) ∧
    ∃ M : List Bool, M.length = 9 ∧
      standardize_order
          (filter_classifications [2, 1, 0, 0, 0, 0, 0, 0, 0]
            [4, -1, 0, 0, 0, 0, 0, 0, 0] (1/2)).1
          (filter_classifications [2, 1, 0, 0, 0, 0, 0, 0, 0]
            [4, -1, 0, 0, 0, 0, 0, 0, 0] (1/2)).2.1
          (filter_classifications [2, 1, 0, 0, 0, 0, 0, 0, 0]
            [4, -1, 0, 0, 0, 0, 0, 0, 0] (1/2)).2.2
        = (List.zipWith (fun a b => a * boolToQ b) [2, 1, 0, 0, 0, 0, 0, 0, 0] M,
           List.zipWith (fun a b => a * boolToQ b) [4, -1, 0, 0, 0, 0, 0, 0, 0] M,
           canonicalTermsIdx) :=
  ⟨⟨rfl, rfl⟩, standardize_filter_roundtrip [2, 1, 0, 0, 0, 0, 0, 0, 0]
    [4, -1, 0, 0, 0, 0, 0, 0, 0] (1/2) rfl rfl⟩

/-! ### Model of `summarise` (lines 48-184) on one output position

`summarise` is modelled for a `(1, 1)` value shape on the default path
(`show_percentages = show_means = show_ranges = False`, `terms = None`), the
path exercised by the spec's scenarios.  With a single value position the
sums over the leading axes (lines 96-102) return the nine-vector itself, so
the model works directly on the per-class lists.  The boolean `mask`
argument is the single entry of the `(1, 1)` mask array; passing `mask =
true` coincides with passing no mask at all, since the mask multiplication
(lines 1123-1125 of `standardize`) is then the identity. -/

/-- Python `f"{count}"` interpolation of a numpy float scalar for
integer-valued values: `repr` of a float prints a trailing `.0` (`1.0`,
`13.0`, …).  Counts in the classify pipeline are sums of boolean
indicators, hence always integer-valued; the non-integral case does not
arise and is mapped to a marker string. -/
def pyFloatRepr (q : ℚ) : String :=
  if q.den = 1 then toString q.num ++ ".0" else "<nonintegral>"

/-- Round-half-to-even of the exact rational `a / b` (for `b > 0`): the
rounding applied by Python fixed-point formatting. -/
def roundHalfEvenInt (a b : ℤ) : ℤ :=
  let f := Int.ediv a b
  let r := a - b * f
  if 2 * r < b then f
  else if b < 2 * r then f + 1
  else if f % 2 = 0 then f else f + 1

/-- Python fixed-point formatting `f"{q:.pf}"` on the exact rational `q`:
round `q` to `p` decimal places (half to even) and print with exactly `p`
fractional digits, the sign taken from `q` itself. -/
def formatFixed (q : ℚ) (p : ℕ) : String :=
  let r := roundHalfEvenInt (q.num * (10:ℤ) ^ p) ((q.den : ℕ) : ℤ)
  let a := r.natAbs
  let ip := a / 10 ^ p
  let fp := a % 10 ^ p
  let fps := toString fp
  (if q.num < 0 then "-" else "") ++ toString ip ++
    (if p = 0 then "" else "." ++ String.mk (List.replicate (p - fps.length) '0') ++ fps)

/-- The `scale` computed by `_format_decimal` (line 1351): `0` if the value
is zero, else `floor(log10(abs(value)))`. -/
def scaleOf (v : ℚ) : ℤ := if v = 0 then 0 else Int.log 10 |v|

/-- `_format_decimal` (lines 1353-1359) with an externally supplied scale:
for negative scales use `significant_digits - scale + 1` decimal places,
otherwise `max 0 (significant_digits - scale - 1)`. -/
def format_decimal_scaled (v : ℚ) (sd : ℤ) (scale : ℤ) : String :=
  if scale < 0 then formatFixed v (sd - scale + 1).toNat
  else formatFixed v (max 0 (sd - scale - 1)).toNat

/-- `np.max` over a float array: raises `ValueError` on an empty array
(a zero-size reduction has no identity). -/
def npMax (xs : List ℚ) : Except PyError ℚ :=
  match xs with
  | [] => .error .valueError
  | a :: rest => .ok (rest.foldl max a)

/-- The nine canonical term labels returned by `classify_terms`
(line 271), in the same order as `classPairs`. -/
def classTermNames : List String :=
  ["PP", "PZ", "PN", "ZP", "ZZ", "ZN", "NP", "NZ", "NN"]

/-- One line of the default summary, `f"{term}: {count} = Σ {sum}"`
(line 178) with the count interpolated as a numpy float scalar and the sum
formatted at 4 significant digits against the shared scale. -/
def summariseLine (scale : ℤ) (t : String) (c s : ℚ) : String :=
  t ++ ": " ++ pyFloatRepr c ++ " = Σ " ++ format_decimal_scaled s 4 scale

/-- The kept per-class rows of `summarise` (lines 93-139): apply the mask,
sort all channels by descending count (`np.argsort(counts)[::-1]`,
line 105), and drop the classes with zero (or negative) count
(lines 131-139).  Returns `(counts, sums, term labels)` of the kept rows. -/
def summariseKept (counts sums : List ℚ) (mask : Bool) :
    List ℚ × List ℚ × List String :=
  let c := counts.map fun x => x * boolToQ mask
  let s := sums.map fun x => x * boolToQ mask
  let so := (argsortBy 0 c).reverse
  let c1 := takeAlong c so 0
  let s1 := takeAlong s so 0
  let t1 := takeAlong classTermNames so ""
  let keep := (List.range c1.length).filter fun i => decide (0 < c1.getD i 0)
  (keep.map fun i => c1.getD i 0, keep.map fun i => s1.getD i 0,
   keep.map fun i => t1.getD i "")

/-- Default-path `summarise` at one output position.  After dropping
zero-count classes, the shared scale is computed from
`np.max(abs(sums_by_class))` (line 152), which raises `ValueError` when
nothing was kept; the `'<empty>'` fallback (lines 180-182) is only
consulted after that reduction succeeds. -/
def summariseDefault (counts sums : List ℚ) (mask : Bool) :
    Except PyError String :=
  let k := summariseKept counts sums mask
  match npMax (k.2.1.map fun x => |x|) with
  | .error e => .error e
  | .ok mx =>
    let body := String.intercalate ", "
      (List.zipWith (fun t cs => summariseLine (scaleOf mx) t cs.1 cs.2)
        k.2.2 (k.1.zip k.2.1))
    .ok (if body = "" then "<empty>" else body)

/-! ### Concrete evaluations of the classify/summarise pipeline -/

theorem derived_threshold_single_pos : derived_threshold [5] 1 = 5 := by
  norm_num [derived_threshold, percentile_midpoint, List.insertionSort,
    List.orderedInsert, List.getD]

theorem derived_threshold_single_neg : derived_threshold [-5] 1 = 5 := by
  norm_num [derived_threshold, percentile_midpoint, List.insertionSort,
    List.orderedInsert, List.getD]

theorem matmul_classify_pn_counts : (matmul_classify [[5]] [[-5]] 5 5).1
    = [[0, 0, 1, 0, 0, 0, 0, 0, 0]] := by
  have ht : ([[-5]] : List (List ℚ)).transpose = [[-5]] := by rfl
  norm_num [matmul_classify, ht, classPairs, dotQ, maskCount, pos_mask, neg_mask,
    zero_mask]

theorem matmul_classify_pn_sums : (matmul_classify [[5]] [[-5]] 5 5).2
    = [[0, 0, -25, 0, 0, 0, 0, 0, 0]] := by
  have ht : ([[-5]] : List (List ℚ)).transpose = [[-5]] := by rfl
  norm_num [matmul_classify, ht, classPairs, dotQ, maskVal, pos_mask, neg_mask,
    zero_mask]

theorem matmul_classify_zero_counts (t : ℚ) : (matmul_classify [[0]] [[0]] t t).1
    = [[0, 0, 0, 0, 1, 0, 0, 0, 0]] := by
  have ht : ([[0]] : List (List ℚ)).transpose = [[0]] := by rfl
  norm_num [matmul_classify, ht, classPairs, dotQ, maskCount, pos_mask, neg_mask,
    zero_mask]

theorem matmul_classify_zero_sums (t : ℚ) : (matmul_classify [[0]] [[0]] t t).2
    = [[0, 0, 0, 0, 0, 0, 0, 0, 0]] := by
  have ht : ([[0]] : List (List ℚ)).transpose = [[0]] := by rfl
  norm_num [matmul_classify, ht, classPairs, dotQ, maskVal, pos_mask, neg_mask,
    zero_mask]

theorem scaleOf_25 : scaleOf 25 = 1 := by
  rw [scaleOf, if_neg (by norm_num : ¬ (25:ℚ) = 0)]
  have h1 : |(25:ℚ)| = ((25:ℕ):ℚ) := by norm_num
  have h2 : Nat.log 10 25 = 1 :=
    Nat.log_eq_of_pow_le_of_lt_pow (by norm_num) (by norm_num)
  rw [h1, Int.log_natCast, h2]
  rfl

theorem summariseDefault_pn :
    summariseDefault [0, 0, 1, 0, 0, 0, 0, 0, 0] [0, 0, -25, 0, 0, 0, 0, 0, 0] true
      = .ok "PN: 1.0 = Σ -25.00" := by
  have hk : summariseKept [0, 0, 1, 0, 0, 0, 0, 0, 0]
      [0, 0, -25, 0, 0, 0, 0, 0, 0] true = ([1], [-25], ["PN"]) := by
    have hc : (([0, 0, 1, 0, 0, 0, 0, 0, 0] : List ℚ).map fun x => x * boolToQ true)
        = [0, 0, 1, 0, 0, 0, 0, 0, 0] := by norm_num [boolToQ]
    have hs : (([0, 0, -25, 0, 0, 0, 0, 0, 0] : List ℚ).map fun x => x * boolToQ true)
        = [0, 0, -25, 0, 0, 0, 0, 0, 0] := by norm_num [boolToQ]
    simp only [summariseKept]
    rw [hc, hs]
    decide
  have hmax : npMax (([(-25:ℚ)]).map fun x => |x|) = .ok 25 := by
    have habs : (([(-25:ℚ)]).map fun x => |x|) = [25] := by norm_num
    rw [habs]
    rfl
  simp only [summariseDefault]
  rw [hk]
  simp only
  rw [hmax]
  simp only
  rw [scaleOf_25]
  rfl

theorem summariseDefault_masked_all :
    summariseDefault [0, 0, 0, 0, 1, 0, 0, 0, 0] [0, 0, 0, 0, 0, 0, 0, 0, 0] false
      = .error .valueError := by
  have hk : summariseKept [0, 0, 0, 0, 1, 0, 0, 0, 0]
      [0, 0, 0, 0, 0, 0, 0, 0, 0] false = ([], [], []) := by
    have hc : (([0, 0, 0, 0, 1, 0, 0, 0, 0] : List ℚ).map fun x => x * boolToQ false)
        = [0, 0, 0, 0, 0, 0, 0, 0, 0] := by norm_num [boolToQ]
    have hs : (([0, 0, 0, 0, 0, 0, 0, 0, 0] : List ℚ).map fun x => x * boolToQ false)
        = [0, 0, 0, 0, 0, 0, 0, 0, 0] := by norm_num [boolToQ]
    simp only [summariseKept]
    rw [hc, hs]
    decide
  simp only [summariseDefault]
  rw [hk]
  rfl

/-- C8: the `'<empty>'` fallback is unreachable on the scenario the spec
promises it for.  For an all-zero 1×1 input pair, classification puts the
single product in the ZZ slot; calling `summarise` with a mask that
excludes every position zeroes all counts, every class is dropped, and the
shared-scale reduction `np.max(abs(sums_by_class))` (line 152) then runs on
an empty array and raises `ValueError` — the function never returns, so in
particular it never returns the promised literal `"<empty>"`. -/
theorem summarise_empty_mask_raises :
    (∀ t : ℚ, (matmul_classify [[0]] [[0]] t t).1 = [[0, 0, 0, 0, 1, 0, 0, 0, 0]] ∧
       (matmul_classify [[0]] [[0]] t t).2 = [[0, 0, 0, 0, 0, 0, 0, 0, 0]]) ∧
    summariseDefault [0, 0, 0, 0, 1, 0, 0, 0, 0] [0, 0, 0, 0, 0, 0, 0, 0, 0] false
      = .error .valueError ∧
    ∀ s : String,
      summariseDefault [0, 0, 0, 0, 1, 0, 0, 0, 0] [0, 0, 0, 0, 0, 0, 0, 0, 0] false
        ≠ .ok s := by
  refine ⟨fun t => ⟨matmul_classify_zero_counts t, matmul_classify_zero_sums t⟩,
    summariseDefault_masked_all, fun s heq => ?_⟩
  rw [summariseDefault_masked_all] at heq
  exact Except.noConfusion heq

/-- C9 (counterexample): on the spec's 1×1 example (`[[5.0]]`, `[[-5.0]]`,
`confidence = 1.0`) the classification is as promised (count 1 in the PN
slot, sum −25, all other terms zero), but `summarise` interpolates the
numpy float count via `f"{count}"`, printing `1.0` rather than `1`; the
returned string is not the spec's `"PN: 1 = Σ -25.00"`. -/
theorem summarise_example_string_cex :
    (matmul_classify [[5]] [[-5]] (derived_threshold [5] 1)
        (derived_threshold [-5] 1)).1 = [[0, 0, 1, 0, 0, 0, 0, 0, 0]] ∧
    (matmul_classify [[5]] [[-5]] (derived_threshold [5] 1)
        (derived_threshold [-5] 1)).2 = [[0, 0, -25, 0, 0, 0, 0, 0, 0]] ∧
    summariseDefault [0, 0, 1, 0, 0, 0, 0, 0, 0] [0, 0, -25, 0, 0, 0, 0, 0, 0] true
      ≠ .ok "PN: 1 = Σ -25.00" := by
  refine ⟨?_, ?_, fun heq => ?_⟩
  · rw [derived_threshold_single_pos, derived_threshold_single_neg]
    exact matmul_classify_pn_counts
  · rw [derived_threshold_single_pos, derived_threshold_single_neg]
    exact matmul_classify_pn_sums
  · rw [summariseDefault_pn] at heq
    injection heq with h2
    exact absurd h2 (by decide)

/-- C9 (amended): the numeric half of the scenario holds exactly —
count 1 in the PN slot, sum −25, all other terms zero, and the sum is
formatted as `-25.00` (scale 1, two decimal places) — but the count prints
as `1.0`: the summary string is `"PN: 1.0 = Σ -25.00"`, matching the
module's own example output format (line 61). -/
theorem summarise_example_string_amended :
    (matmul_classify [[5]] [[-5]] (derived_threshold [5] 1)
        (derived_threshold [-5] 1)).1 = [[0, 0, 1, 0, 0, 0, 0, 0, 0]] ∧
    (matmul_classify [[5]] [[-5]] (derived_threshold [5] 1)
        (derived_threshold [-5] 1)).2 = [[0, 0, -25, 0, 0, 0, 0, 0, 0]] ∧
    summariseDefault [0, 0, 1, 0, 0, 0, 0, 0, 0] [0, 0, -25, 0, 0, 0, 0, 0, 0] true
      = .ok "PN: 1.0 = Σ -25.00" := by
  refine ⟨?_, ?_, summariseDefault_pn⟩
  · rw [derived_threshold_single_pos, derived_threshold_single_neg]
    exact matmul_classify_pn_counts
  · rw [derived_threshold_single_pos, derived_threshold_single_neg]
    exact matmul_classify_pn_sums
